import Mathlib

/-!
# A verification development for the chess rules engine of `server.js`

The engine is the class `chess` of `src/server.js`: an 8×8 board of optional
pieces, a side-to-move flag, and the methods `initBoard`, `cloneBoard`,
`isInBounds`, `findKing`, `isSquareAttacked`, `isInCheck`, `isCheckmate`,
`isValidPieceMove`, `clearPath` and `move`.

Embedding conventions.

* A piece is `{ type, color }` with `type` one of `"p" "r" "n" "b" "q" "k"` and
  `color` one of `"w" "b"`; the turn is `"white"` or `"black"` and the code
  compares a piece colour with `turn[0]`.  These are the types `Kind`, `Color`,
  `Side` and the function `Side.initial`.
* Coordinates are JavaScript numbers, here integers (`Int`).
* The board is an array of 8 arrays of 8 cells.  Reading `board[r][c]` with `r`
  outside `0..7` throws a `TypeError` (`board[r]` is `undefined`); with `r`
  inside and `c` outside it yields `undefined`, which every test in the code
  treats like `null`.  `getCell` returns `Except Fault (Option Piece)`.
* Methods that can throw return `Except Fault _`.  The `while` loop of
  `clearPath` is run with fuel; `Fault.outOfFuel` stands for a loop that did
  not finish within the fuel.
* `this.board` and `this.turn` are passed explicitly; `move` returns the pair of
  its completion (value or fault) and the engine state after the call.
* A value that the code only tests for truthiness (the result of
  `isValidPieceMove`, which may be a boolean, a piece object or `null`) is a
  `Bool`.
* The nested `for` loops over rows and columns `0..7` run over `allSquares`, the
  64 squares in row-major order; the `switch` of `isValidPieceMove` and its
  `case "p"` block are the helpers `pieceSwitch` and `pawnMove`.
* For statements about which cells a call reads, `clearPath`, the `switch` and
  `isValidPieceMove` have traced copies (`clearPathTraced`, `pieceSwitchTraced`,
  `isValidPieceMoveTraced`) that return the result together with the list of
  cells read, in order; each is proved to return the result of the untraced
  definition.
-/

namespace Chess

/-- Piece kinds, the `type` field of a piece. -/
inductive Kind where
  | p | r | n | b | q | k
  deriving DecidableEq, Repr

/-- Piece colours, the `color` field of a piece: `"w"` or `"b"`. -/
inductive Color where
  | w | b
  deriving DecidableEq, Repr

/-- The side to move, `this.turn`: `"white"` or `"black"`. -/
inductive Side where
  | white | black
  deriving DecidableEq, Repr

/-- First character of the side name, `color[0]`. -/
def Side.initial : Side → Color
  | .white => .w
  | .black => .b

/-- The other side, `color === "white" ? "black" : "white"`. -/
def Side.other (s : Side) : Side :=
  if s = .white then .black else .white

/-- A piece object `{ type, color }`. -/
structure Piece where
  type : Kind
  color : Color
  deriving DecidableEq, Repr

/-- A square object `{ row, col }`. -/
structure Square where
  row : Int
  col : Int
  deriving DecidableEq, Repr

/-- The 8×8 grid; `none` is an empty cell (`null`). -/
abbrev Board := Fin 8 → Fin 8 → Option Piece

/-- Ways a call can fail to return a value. -/
inductive Fault where
  | typeError
  | outOfFuel
  deriving DecidableEq, Repr

/-- The engine state: `this.board` and `this.turn`. -/
structure Game where
  board : Board
  turn : Side

/-- The index range of the `for` loops, `0 .. 7`. -/
def idx8 : List (Fin 8) := [0, 1, 2, 3, 4, 5, 6, 7]

/-- All squares in the order of a nested `for (r) for (c)` loop. -/
def allSquares : List (Fin 8 × Fin 8) :=
  idx8.flatMap (fun r => idx8.map (fun c => (r, c)))

/-- The square object built from two loop counters. -/
def sq (r c : Fin 8) : Square := ⟨(r.val : Int), (c.val : Int)⟩

/-- Reading `board[r][c]`. -/
def getCell (board : Board) (r c : Int) : Except Fault (Option Piece) :=
  if hr : 0 ≤ r ∧ r < 8 then
    if hc : 0 ≤ c ∧ c < 8 then
      .ok (board ⟨r.toNat, by omega⟩ ⟨c.toNat, by omega⟩)
    else .ok none
  else .error .typeError

/-- The grid after `board[r][c] = v`.  Used directly where the code writes at
loop counters or literal rows (`initBoard`, `isCheckmate`), which lie inside the
grid; a write outside the grid would change no cell of the grid. -/
def Board.set (board : Board) (r c : Int) (v : Option Piece) : Board :=
  fun i j => if (i.val : Int) = r ∧ (j.val : Int) = c then v else board i j

/-- Writing `board[r][c] = v` at caller-supplied coordinates (`move`): throws
when `board[r]` is `undefined`. -/
def setCell (board : Board) (r c : Int) (v : Option Piece) : Except Fault Board :=
  if 0 ≤ r ∧ r < 8 then .ok (board.set r c v) else .error .typeError

/-- The array `backRank` of `initBoard`. -/
def backRank : Fin 8 → Kind
  | 0 => .r | 1 => .n | 2 => .b | 3 => .q | 4 => .k | 5 => .b | 6 => .n | 7 => .r

/-- The closure `setup(color, row)` of `initBoard`, acting on the board: for
each `i` it writes the back-rank piece on `row` and a pawn on the next row. -/
def setup (color : Color) (row : Int) (board : Board) : Board :=
  idx8.foldl
    (fun bd i =>
      (bd.set row i.val (some ⟨backRank i, color⟩)).set
        (if color = .w then row + 1 else row - 1) i.val (some ⟨.p, color⟩))
    board

/-- The method `initBoard`. -/
def initBoard : Board :=
  setup .b 7 (setup .w 0 (fun _ _ => none))

/-- The constructor: `new chess()`. -/
def Game.new : Game := ⟨initBoard, .white⟩

/-- The method `cloneBoard`. -/
def cloneBoard (board : Board) : Board :=
  fun i j => match board i j with
    | some piece => some ⟨piece.type, piece.color⟩
    | none => none

/-- The method `isInBounds`. -/
def isInBounds (row col : Int) : Bool :=
  decide (row ≥ 0) && decide (row < 8) && decide (col ≥ 0) && decide (col < 8)

/-- The function `Math.abs` on integers. -/
def Math.abs (x : Int) : Int := if x < 0 then -x else x

/-- The function `Math.sign` on integers. -/
def Math.sign (x : Int) : Int := if 0 < x then 1 else if x < 0 then -1 else 0

/-- The `while` loop of `clearPath`, with fuel. -/
def clearPathLoop (board : Board) (dr dc : Int) (dst : Square) :
    Nat → Int → Int → Except Fault Bool
  | 0, _, _ => .error .outOfFuel
  | fuel + 1, r, c =>
    if r ≠ dst.row ∨ c ≠ dst.col then
      match getCell board r c with
      | .error e => .error e
      | .ok (some _) => .ok false
      | .ok none => clearPathLoop board dr dc dst fuel (r + dr) (c + dc)
    else .ok true

/-- Fuel given to the loop of `clearPath`. -/
def clearPathFuel (frm dst : Square) : Nat :=
  (dst.row - frm.row).natAbs + (dst.col - frm.col).natAbs + 9

/-- The method `clearPath`. -/
def clearPath (frm dst : Square) (board : Board) : Except Fault Bool :=
  let dr := Math.sign (dst.row - frm.row)
  let dc := Math.sign (dst.col - frm.col)
  clearPathLoop board dr dc dst (clearPathFuel frm dst) (frm.row + dr) (frm.col + dc)

/-- The test `target && target.color === piece.color`. -/
def sameColor (target : Option Piece) (piece : Piece) : Bool :=
  match target with
  | some t => decide (t.color = piece.color)
  | none => false

/-- The `case "p"` block of `isValidPieceMove`; the result is the truthiness of
`oneStep || twoStep || capture`. -/
def pawnMove (piece : Piece) (target : Option Piece) (frm dst : Square)
    (board : Board) : Except Fault Bool :=
  let dc := dst.col - frm.col
  let direction : Int := if piece.color = .w then 1 else -1
  let startRow : Int := if piece.color = .w then 1 else 6
  let oneStep : Bool :=
    decide (frm.row + direction = dst.row) && decide (frm.col = dst.col) && target.isNone
  let twoStep : Except Fault Bool :=
    if frm.row = startRow ∧ frm.col = dst.col ∧ dst.row = frm.row + 2 * direction
        ∧ target.isNone = true then
      match getCell board (frm.row + direction) frm.col with
      | .error e => .error e
      | .ok mid => .ok mid.isNone
    else .ok false
  let capture : Bool :=
    decide (Math.abs dc = 1) && decide (dst.row = frm.row + direction) && target.isSome
  match twoStep with
  | .error e => .error e
  | .ok two => .ok (oneStep || two || capture)

/-- The `switch (type)` statement of `isValidPieceMove`. -/
def pieceSwitch (type : Kind) (piece : Piece) (target : Option Piece) (frm dst : Square)
    (board : Board) : Except Fault Bool :=
  let dr := dst.row - frm.row
  let dc := dst.col - frm.col
  match type with
  | .p => pawnMove piece target frm dst board
  | .r =>
    if dr = 0 ∨ dc = 0 then clearPath frm dst board else .ok false
  | .b =>
    if Math.abs dr = Math.abs dc then clearPath frm dst board else .ok false
  | .q =>
    if Math.abs dr = Math.abs dc ∨ dr = 0 ∨ dc = 0 then clearPath frm dst board else .ok false
  | .n =>
    .ok (decide ((Math.abs dr = 2 ∧ Math.abs dc = 1) ∨ (Math.abs dr = 1 ∧ Math.abs dc = 2)))
  | .k =>
    .ok (decide (Math.abs dr ≤ 1 ∧ Math.abs dc ≤ 1))

/-- The method `isValidPieceMove`; `turn` is `this.turn`. -/
def isValidPieceMove (turn : Side) (type : Kind) (frm dst : Square) (board : Board)
    (ignoreTurn : Bool) : Except Fault Bool :=
  match getCell board frm.row frm.col with
  | .error e => .error e
  | .ok pieceOpt =>
    match getCell board dst.row dst.col with
    | .error e => .error e
    | .ok target =>
      match pieceOpt with
      | none => .ok false
      | some piece =>
        if !ignoreTurn && decide (piece.color ≠ turn.initial) then .ok false
        else if !isInBounds dst.row dst.col then .ok false
        else if sameColor target piece then .ok false
        else pieceSwitch type piece target frm dst board

/-- The test `p && p.type === "k" && p.color === color[0]` of `findKing`. -/
def isKingOf (color : Side) (cell : Option Piece) : Bool :=
  match cell with
  | some p => decide (p.type = .k) && decide (p.color = color.initial)
  | none => false

/-- The method `findKing`: the first king of the colour in loop order. -/
def findKing (color : Side) (board : Board) : Option Square :=
  match allSquares.find? (fun s => isKingOf color (board s.1 s.2)) with
  | some s => some (sq s.1 s.2)
  | none => none

/-- The nested loops of `isSquareAttacked`, over the squares still to visit. -/
def isSquareAttackedLoop (turn : Side) (row col : Int) (byColor : Side) (board : Board) :
    List (Fin 8 × Fin 8) → Except Fault Bool
  | [] => .ok false
  | s :: rest =>
    match board s.1 s.2 with
    | none => isSquareAttackedLoop turn row col byColor board rest
    | some p =>
      if p.color ≠ byColor.initial then
        isSquareAttackedLoop turn row col byColor board rest
      else
        match isValidPieceMove turn p.type (sq s.1 s.2) ⟨row, col⟩ board true with
        | .error e => .error e
        | .ok true => .ok true
        | .ok false => isSquareAttackedLoop turn row col byColor board rest

/-- The method `isSquareAttacked`. -/
def isSquareAttacked (turn : Side) (row col : Int) (byColor : Side) (board : Board) :
    Except Fault Bool :=
  isSquareAttackedLoop turn row col byColor board allSquares

/-- The method `isInCheck`. -/
def isInCheck (turn : Side) (color : Side) (board : Board) : Except Fault Bool :=
  match findKing color board with
  | none => .ok false
  | some kingPos =>
    isSquareAttacked turn kingPos.row kingPos.col
      (if color = .white then .black else .white) board

/-- The board `testBoard` / `cloned` after the two writes of a trial move, for
squares of the grid. -/
def trialBoard (board : Board) (p : Piece) (frm dst : Square) : Board :=
  ((cloneBoard board).set dst.row dst.col (some ⟨p.type, p.color⟩)).set frm.row frm.col none

/-- The two inner loops of `isCheckmate` for one source square: `.ok false`
when the method returns `false` from inside them, `.ok true` when they run to
the end. -/
def isCheckmateInner (turn : Side) (color : Side) (board : Board) (p : Piece)
    (r1 c1 : Fin 8) : List (Fin 8 × Fin 8) → Except Fault Bool
  | [] => .ok true
  | d :: rest =>
    match isValidPieceMove turn p.type (sq r1 c1) (sq d.1 d.2) board false with
    | .error e => .error e
    | .ok false => isCheckmateInner turn color board p r1 c1 rest
    | .ok true =>
      match isInCheck turn color (trialBoard board p (sq r1 c1) (sq d.1 d.2)) with
      | .error e => .error e
      | .ok false => .ok false
      | .ok true => isCheckmateInner turn color board p r1 c1 rest

/-- The two outer loops of `isCheckmate`, over the source squares still to
visit. -/
def isCheckmateOuter (turn : Side) (color : Side) (board : Board) :
    List (Fin 8 × Fin 8) → Except Fault Bool
  | [] => .ok true
  | s :: rest =>
    match board s.1 s.2 with
    | none => isCheckmateOuter turn color board rest
    | some p =>
      if p.color ≠ color.initial then isCheckmateOuter turn color board rest
      else
        match isCheckmateInner turn color board p s.1 s.2 allSquares with
        | .error e => .error e
        | .ok false => .ok false
        | .ok true => isCheckmateOuter turn color board rest

/-- The method `isCheckmate`, on the engine state `g`. -/
def isCheckmate (g : Game) (color : Side) : Except Fault Bool :=
  isCheckmateOuter g.turn color g.board allSquares

/-- The three `{ error: ... }` values `move` can return. -/
inductive MoveError where
  | noPieceAtSource
  | invalidMove
  | moveIntoCheck
  deriving DecidableEq, Repr

/-- The success value `{ board, turn, gameOver, winner }` of `move`. -/
structure MoveOk where
  board : Board
  turn : Side
  gameOver : Bool
  winner : Option Side

/-- What `move` returns. -/
inductive MoveResult where
  | error (e : MoveError)
  | ok (s : MoveOk)

/-- The method `move`: its completion and the engine state after the call. -/
def move (g : Game) (frm dst : Square) : Except Fault MoveResult × Game :=
  match getCell g.board frm.row frm.col with
  | .error e => (.error e, g)
  | .ok none => (.ok (.error .noPieceAtSource), g)
  | .ok (some piece) =>
    match isValidPieceMove g.turn piece.type frm dst g.board false with
    | .error e => (.error e, g)
    | .ok false => (.ok (.error .invalidMove), g)
    | .ok true =>
      match setCell (cloneBoard g.board) dst.row dst.col (some ⟨piece.type, piece.color⟩) with
      | .error e => (.error e, g)
      | .ok cloned1 =>
        match setCell cloned1 frm.row frm.col none with
        | .error e => (.error e, g)
        | .ok cloned =>
          match isInCheck g.turn g.turn cloned with
          | .error e => (.error e, g)
          | .ok true => (.ok (.error .moveIntoCheck), g)
          | .ok false =>
            let prevTurn := g.turn
            let g1 : Game := ⟨cloned, if g.turn = .white then .black else .white⟩
            match isCheckmate g1 g1.turn with
            | .error e => (.error e, g1)
            | .ok gameOver =>
              (.ok (.ok ⟨g1.board, g1.turn, gameOver, if gameOver then some prevTurn else none⟩),
                g1)

/-- A square inside the 8×8 grid. -/
def Square.InBounds (s : Square) : Prop :=
  0 ≤ s.row ∧ s.row < 8 ∧ 0 ≤ s.col ∧ s.col < 8

instance (s : Square) : Decidable s.InBounds :=
  inferInstanceAs (Decidable (0 ≤ s.row ∧ s.row < 8 ∧ 0 ≤ s.col ∧ s.col < 8))

/-- Squares on a common row, column or diagonal. -/
def Aligned (frm dst : Square) : Prop :=
  dst.row - frm.row = 0 ∨ dst.col - frm.col = 0 ∨
    Math.abs (dst.row - frm.row) = Math.abs (dst.col - frm.col)

/-- Number of unit steps from `frm` to `dst`: the larger of `|dr|` and `|dc|`. -/
def steps (frm dst : Square) : Nat :=
  max (dst.row - frm.row).natAbs (dst.col - frm.col).natAbs

/-- The square `k` unit steps from `frm` towards `dst`. -/
def pathSquare (frm dst : Square) (k : Nat) : Square :=
  ⟨frm.row + k * Math.sign (dst.row - frm.row), frm.col + k * Math.sign (dst.col - frm.col)⟩

/-- Engine states reachable from `new chess()` by calls of `move` on squares of
the grid, whatever each call returns. -/
inductive Reachable : Game → Prop where
  | init : Reachable Game.new
  | step (g : Game) (frm dst : Square) :
      Reachable g → frm.InBounds → dst.InBounds → Reachable (move g frm dst).2

/-- Number of kings of a colour on the board. -/
def kingCount (color : Side) (board : Board) : Nat :=
  allSquares.countP (fun s => isKingOf color (board s.1 s.2))

/-- The board has a king of the colour on exactly one square. -/
def UniqueKing (color : Side) (board : Board) : Prop :=
  ∃ k : Fin 8 × Fin 8, ∀ s : Fin 8 × Fin 8, isKingOf color (board s.1 s.2) = true ↔ s = k

/-- The invariant carried along a game: one king of each colour, and the side
that is not to move is not in check. -/
structure Inv (g : Game) : Prop where
  white : UniqueKing .white g.board
  black : UniqueKing .black g.board
  safe : isInCheck g.turn g.turn.other g.board = .ok false

/-- The fields `turn`, `gameOver`, `winner` of an accepted move; `none` for a
rejection or a fault. -/
def outcome (r : Except Fault MoveResult) : Option (Side × Bool × Option Side) :=
  match r with
  | .ok (.ok s) => some (s.turn, s.gameOver, s.winner)
  | _ => none

/-- The state after 1. e2-e4 from the initial position. -/
def afterE4 : Game := (move Game.new ⟨1, 4⟩ ⟨3, 4⟩).2

/-- The state after 1. e2-e4 d7-d5. -/
def afterE4D5 : Game := (move afterE4 ⟨6, 3⟩ ⟨4, 3⟩).2

/-- A position with a pawn on e2 and a piece on e3: the initial position with
a white knight put on e3, white to move. -/
def blockedE3 : Game := ⟨initBoard.set 2 4 (some ⟨.n, .w⟩), .white⟩

/-- The state before the last move of the fool's mate: after f2-f3, e7-e5,
g2-g4. -/
def foolsMate3 : Game :=
  (move (move (move Game.new ⟨1, 5⟩ ⟨2, 5⟩).2 ⟨6, 4⟩ ⟨4, 4⟩).2 ⟨1, 6⟩ ⟨3, 6⟩).2

/-- The board with no piece. -/
def emptyBoard : Board := fun _ _ => none

/-- A stalemate: black king on (7,0), white queen on (5,1), white king on
(0,7), every other square empty. -/
def stalemateBoard : Board :=
  ((emptyBoard.set 7 0 (some ⟨.k, .b⟩)).set 5 1 (some ⟨.q, .w⟩)).set 0 7
    (some ⟨.k, .w⟩)

/-- The position one move before `stalemateBoard`: the white queen still on
(5,2), white to move. -/
def preStalemate : Game :=
  ⟨((emptyBoard.set 7 0 (some ⟨.k, .b⟩)).set 5 2 (some ⟨.q, .w⟩)).set 0 7
    (some ⟨.k, .w⟩), .white⟩

/-- A pair of squares that gets `color` out of check in state `g`: both squares
on the grid, a piece of that colour on `frm`, the turn-respecting
`isValidPieceMove` true, and the colour's king not in check on the board with
the piece moved. -/
def Escapes (g : Game) (color : Side) (frm dst : Square) : Prop :=
  frm.InBounds ∧ dst.InBounds ∧
    ∃ p, getCell g.board frm.row frm.col = .ok (some p) ∧ p.color = color.initial ∧
      isValidPieceMove g.turn p.type frm dst g.board false = .ok true ∧
      isInCheck g.turn color (trialBoard g.board p frm dst) = .ok false

/-- The state after a sequence of calls of `move`. -/
def playAll (g : Game) (ms : List (Square × Square)) : Game :=
  ms.foldl (fun st m => (move st m.1 m.2).2) g

/-- Number of occupied squares of the board. -/
def pieceCount (board : Board) : Nat :=
  allSquares.countP (fun s => (board s.1 s.2).isSome)


/-- A board with a white rook on (0,0) and nothing else. -/
def rookBoard : Board := emptyBoard.set 0 0 (some ⟨.r, .w⟩)

/-- The loop of `clearPath` together with the cells it reads, in order (a
faulting read is listed too). -/
def clearPathLoopTraced (board : Board) (dr dc : Int) (dst : Square) :
    Nat → Int → Int → Except Fault Bool × List Square
  | 0, _, _ => (.error .outOfFuel, [])
  | fuel + 1, r, c =>
    if r ≠ dst.row ∨ c ≠ dst.col then
      match getCell board r c with
      | .error e => (.error e, [⟨r, c⟩])
      | .ok (some _) => (.ok false, [⟨r, c⟩])
      | .ok none =>
        ((clearPathLoopTraced board dr dc dst fuel (r + dr) (c + dc)).1,
          ⟨r, c⟩ :: (clearPathLoopTraced board dr dc dst fuel (r + dr) (c + dc)).2)
    else (.ok true, [])

/-- The method `clearPath` together with the cells it reads. -/
def clearPathTraced (frm dst : Square) (board : Board) : Except Fault Bool × List Square :=
  let dr := Math.sign (dst.row - frm.row)
  let dc := Math.sign (dst.col - frm.col)
  clearPathLoopTraced board dr dc dst (clearPathFuel frm dst) (frm.row + dr) (frm.col + dc)

/-- The `case "p"` block of `isValidPieceMove` together with the cell it reads
(the square in between, read only when the tests before it in `twoStep`
hold). -/
def pawnMoveTraced (piece : Piece) (target : Option Piece) (frm dst : Square)
    (board : Board) : Except Fault Bool × List Square :=
  let dc := dst.col - frm.col
  let direction : Int := if piece.color = .w then 1 else -1
  let startRow : Int := if piece.color = .w then 1 else 6
  let oneStep : Bool :=
    decide (frm.row + direction = dst.row) && decide (frm.col = dst.col) && target.isNone
  let twoStep : Except Fault Bool × List Square :=
    if frm.row = startRow ∧ frm.col = dst.col ∧ dst.row = frm.row + 2 * direction
        ∧ target.isNone = true then
      match getCell board (frm.row + direction) frm.col with
      | .error e => (.error e, [⟨frm.row + direction, frm.col⟩])
      | .ok mid => (.ok mid.isNone, [⟨frm.row + direction, frm.col⟩])
    else (.ok false, [])
  let capture : Bool :=
    decide (Math.abs dc = 1) && decide (dst.row = frm.row + direction) && target.isSome
  match twoStep.1 with
  | .error e => (.error e, twoStep.2)
  | .ok two => (.ok (oneStep || two || capture), twoStep.2)

/-- The `switch (type)` statement of `isValidPieceMove` together with the
cells it reads. -/
def pieceSwitchTraced (type : Kind) (piece : Piece) (target : Option Piece)
    (frm dst : Square) (board : Board) : Except Fault Bool × List Square :=
  let dr := dst.row - frm.row
  let dc := dst.col - frm.col
  match type with
  | .p => pawnMoveTraced piece target frm dst board
  | .r =>
    if dr = 0 ∨ dc = 0 then clearPathTraced frm dst board else (.ok false, [])
  | .b =>
    if Math.abs dr = Math.abs dc then clearPathTraced frm dst board else (.ok false, [])
  | .q =>
    if Math.abs dr = Math.abs dc ∨ dr = 0 ∨ dc = 0 then clearPathTraced frm dst board
    else (.ok false, [])
  | .n =>
    (.ok (decide ((Math.abs dr = 2 ∧ Math.abs dc = 1) ∨ (Math.abs dr = 1 ∧ Math.abs dc = 2))),
      [])
  | .k =>
    (.ok (decide (Math.abs dr ≤ 1 ∧ Math.abs dc ≤ 1)), [])

/-- The method `isValidPieceMove` together with the cells it reads, in order:
`board[from.row][from.col]`, `board[to.row][to.col]`, then the reads of the
`switch`. -/
def isValidPieceMoveTraced (turn : Side) (type : Kind) (frm dst : Square) (board : Board)
    (ignoreTurn : Bool) : Except Fault Bool × List Square :=
  match getCell board frm.row frm.col with
  | .error e => (.error e, [frm])
  | .ok pieceOpt =>
    match getCell board dst.row dst.col with
    | .error e => (.error e, [frm, dst])
    | .ok target =>
      match pieceOpt with
      | none => (.ok false, [frm, dst])
      | some piece =>
        if !ignoreTurn && decide (piece.color ≠ turn.initial) then (.ok false, [frm, dst])
        else if !isInBounds dst.row dst.col then (.ok false, [frm, dst])
        else if sameColor target piece then (.ok false, [frm, dst])
        else
          ((pieceSwitchTraced type piece target frm dst board).1,
            frm :: dst :: (pieceSwitchTraced type piece target frm dst board).2)

/-- The squares strictly between `frm` and `dst`, in the order of the walk. -/
def betweenSquares (frm dst : Square) : List Square :=
  (List.range (steps frm dst - 1)).map (fun i => pathSquare frm dst (i + 1))

/-! ## Properties of the embedding -/

theorem mem_idx8 : ∀ i : Fin 8, i ∈ idx8 := by decide

theorem mem_allSquares (s : Fin 8 × Fin 8) : s ∈ allSquares := by
  obtain ⟨r, c⟩ := s
  simp only [allSquares, List.mem_flatMap, List.mem_map]
  exact ⟨r, mem_idx8 r, c, mem_idx8 c, rfl⟩

theorem nodup_allSquares : allSquares.Nodup := by decide

theorem sq_inBounds (r c : Fin 8) : (sq r c).InBounds := by
  simp only [Square.InBounds, sq]; omega

theorem inBounds_eq_sq {s : Square} (h : s.InBounds) : ∃ r c : Fin 8, s = sq r c := by
  obtain ⟨row, col⟩ := s
  simp only [Square.InBounds] at h
  refine ⟨⟨row.toNat, by omega⟩, ⟨col.toNat, by omega⟩, ?_⟩
  simp only [sq, Square.mk.injEq]
  omega

theorem getCell_sq (b : Board) (r c : Fin 8) :
    getCell b (sq r c).row (sq r c).col = .ok (b r c) := by
  have hr : (0 : Int) ≤ (r.val : Int) ∧ (r.val : Int) < 8 := by omega
  have hc : (0 : Int) ≤ (c.val : Int) ∧ (c.val : Int) < 8 := by omega
  simp [getCell, sq, hr, hc]

theorem getCell_ok_of_inBounds (b : Board) {r c : Int} (hr : 0 ≤ r ∧ r < 8)
    (hc : 0 ≤ c ∧ c < 8) : ∃ v, getCell b r c = .ok v := by
  simp [getCell, hr, hc]

theorem cloneBoard_eq (b : Board) : cloneBoard b = b := by
  funext i j
  simp only [cloneBoard]
  cases b i j <;> rfl

theorem clearPathLoop_spec (board : Board) (sr sc : Int) (dst : Square)
    (hs : sr ≠ 0 ∨ sc ≠ 0) (n : Nat) :
    ∀ (fuel : Nat) (r c : Int), n < fuel →
      dst.row = r + n * sr → dst.col = c + n * sc →
      (∀ k : Nat, k < n → (0 ≤ r + k * sr ∧ r + k * sr < 8) ∧ (0 ≤ c + k * sc ∧ c + k * sc < 8)) →
      (clearPathLoop board sr sc dst fuel r c = .ok true ∧
        ∀ k : Nat, k < n → getCell board (r + k * sr) (c + k * sc) = .ok none) ∨
      (clearPathLoop board sr sc dst fuel r c = .ok false ∧
        ∃ k : Nat, k < n ∧ ∃ p, getCell board (r + k * sr) (c + k * sc) = .ok (some p)) := by
  induction n with
  | zero =>
    intro fuel r c hf hr hc _
    left
    obtain ⟨f, rfl⟩ : ∃ f, fuel = f + 1 := ⟨fuel - 1, by omega⟩
    refine ⟨?_, fun k hk => absurd hk (Nat.not_lt_zero k)⟩
    have h1 : r = dst.row := by simp [hr]
    have h2 : c = dst.col := by simp [hc]
    simp [clearPathLoop, h1, h2]
  | succ n ih =>
    intro fuel r c hf hr hc hin
    obtain ⟨f, rfl⟩ : ∃ f, fuel = f + 1 := ⟨fuel - 1, by omega⟩
    have hcond : r ≠ dst.row ∨ c ≠ dst.col := by
      rcases hs with h | h
      · left
        intro he
        rw [hr] at he
        have : ((n + 1 : Nat) : Int) * sr = 0 := by linarith
        rcases mul_eq_zero.mp this with h0 | h0
        · omega
        · exact h h0
      · right
        intro he
        rw [hc] at he
        have : ((n + 1 : Nat) : Int) * sc = 0 := by linarith
        rcases mul_eq_zero.mp this with h0 | h0
        · omega
        · exact h h0
    have h0 := hin 0 (Nat.succ_pos n)
    simp only [Nat.cast_zero, zero_mul, add_zero] at h0
    obtain ⟨v, hv⟩ := getCell_ok_of_inBounds board h0.1 h0.2
    cases v with
    | some p =>
      right
      refine ⟨by simp [clearPathLoop, hcond, hv], 0, Nat.succ_pos n, p, ?_⟩
      simpa using hv
    | none =>
      have hr2 : dst.row = (r + sr) + n * sr := by rw [hr]; push_cast; ring
      have hc2 : dst.col = (c + sc) + n * sc := by rw [hc]; push_cast; ring
      have hin2 : ∀ k : Nat, k < n → (0 ≤ (r + sr) + k * sr ∧ (r + sr) + k * sr < 8) ∧
          (0 ≤ (c + sc) + k * sc ∧ (c + sc) + k * sc < 8) := by
        intro k hk
        have := hin (k + 1) (by omega)
        have e1 : r + ((k + 1 : Nat) : Int) * sr = r + sr + k * sr := by push_cast; ring
        have e2 : c + ((k + 1 : Nat) : Int) * sc = c + sc + k * sc := by push_cast; ring
        rw [e1, e2] at this
        exact this
      have hstep : clearPathLoop board sr sc dst (f + 1) r c =
          clearPathLoop board sr sc dst f (r + sr) (c + sc) := by
        simp [clearPathLoop, hcond, hv]
      rcases ih f (r + sr) (c + sc) (by omega) hr2 hc2 hin2 with ⟨h1, h2⟩ | ⟨h1, k, hk, p, hp⟩
      · left
        refine ⟨by rw [hstep]; exact h1, ?_⟩
        intro k hk
        cases k with
        | zero => simpa using hv
        | succ k =>
          have := h2 k (by omega)
          have e1 : r + ((k + 1 : Nat) : Int) * sr = r + sr + k * sr := by push_cast; ring
          have e2 : c + ((k + 1 : Nat) : Int) * sc = c + sc + k * sc := by push_cast; ring
          rw [e1, e2]; exact this
      · right
        refine ⟨by rw [hstep]; exact h1, k + 1, by omega, p, ?_⟩
        have e1 : r + ((k + 1 : Nat) : Int) * sr = r + sr + k * sr := by push_cast; ring
        have e2 : c + ((k + 1 : Nat) : Int) * sc = c + sc + k * sc := by push_cast; ring
        rw [e1, e2]; exact hp

theorem sign_walk (x y : Int) (m : Nat) (hx : 0 ≤ x ∧ x < 8) (hy : 0 ≤ y ∧ y < 8)
    (h : y - x = 0 ∨ (y - x).natAbs = m) :
    y = x + m * Math.sign (y - x) ∧
      ∀ k : Nat, k ≤ m → 0 ≤ x + k * Math.sign (y - x) ∧ x + k * Math.sign (y - x) < 8 := by
  unfold Math.sign
  split_ifs with h1 h2
  · refine ⟨by omega, fun k hk => by omega⟩
  · refine ⟨by omega, fun k hk => by omega⟩
  · refine ⟨by omega, fun k hk => by omega⟩

theorem aligned_cases {frm dst : Square} (h : Aligned frm dst) :
    (dst.row - frm.row = 0 ∨ (dst.row - frm.row).natAbs = steps frm dst) ∧
    (dst.col - frm.col = 0 ∨ (dst.col - frm.col).natAbs = steps frm dst) := by
  unfold Aligned Math.abs at h
  unfold steps
  split_ifs at h <;> omega

theorem sign_ne_zero_of_steps {frm dst : Square} (h : 0 < steps frm dst) :
    Math.sign (dst.row - frm.row) ≠ 0 ∨ Math.sign (dst.col - frm.col) ≠ 0 := by
  unfold steps at h
  unfold Math.sign
  split_ifs <;> omega

theorem pathSquare_inBounds {frm dst : Square} (hf : frm.InBounds) (hd : dst.InBounds)
    (ha : Aligned frm dst) {k : Nat} (hk : k ≤ steps frm dst) :
    (pathSquare frm dst k).InBounds := by
  obtain ⟨h1, h2⟩ := aligned_cases ha
  have r := (sign_walk frm.row dst.row (steps frm dst) ⟨hf.1, hf.2.1⟩ ⟨hd.1, hd.2.1⟩ h1).2 k hk
  have c := (sign_walk frm.col dst.col (steps frm dst) ⟨hf.2.2.1, hf.2.2.2⟩
    ⟨hd.2.2.1, hd.2.2.2⟩ h2).2 k hk
  exact ⟨r.1, r.2, c.1, c.2⟩

theorem pathSquare_steps {frm dst : Square} (hf : frm.InBounds) (hd : dst.InBounds)
    (ha : Aligned frm dst) : pathSquare frm dst (steps frm dst) = dst := by
  obtain ⟨h1, h2⟩ := aligned_cases ha
  have r := (sign_walk frm.row dst.row (steps frm dst) ⟨hf.1, hf.2.1⟩ ⟨hd.1, hd.2.1⟩ h1).1
  have c := (sign_walk frm.col dst.col (steps frm dst) ⟨hf.2.2.1, hf.2.2.2⟩
    ⟨hd.2.2.1, hd.2.2.2⟩ h2).1
  obtain ⟨dr, dc⟩ := dst
  simp only [pathSquare, Square.mk.injEq]
  exact ⟨r.symm, c.symm⟩

/-- On aligned squares of the grid `clearPath` returns a value: `true` when
every square strictly between is empty, `false` when one of them is occupied. -/
theorem clearPath_spec (board : Board) {frm dst : Square} (hf : frm.InBounds)
    (hd : dst.InBounds) (ha : Aligned frm dst) :
    (clearPath frm dst board = .ok true ∧
      ∀ k : Nat, 0 < k → k < steps frm dst →
        getCell board (pathSquare frm dst k).row (pathSquare frm dst k).col = .ok none) ∨
    (clearPath frm dst board = .ok false ∧
      ∃ k : Nat, 0 < k ∧ k < steps frm dst ∧ ∃ p,
        getCell board (pathSquare frm dst k).row (pathSquare frm dst k).col = .ok (some p)) := by
  rcases Nat.eq_zero_or_pos (steps frm dst) with h0 | hpos
  · left
    have hst := pathSquare_steps hf hd ha
    rw [h0] at hst
    simp only [pathSquare, Nat.cast_zero, zero_mul, add_zero] at hst
    have hr : Math.sign (dst.row - frm.row) = 0 := by
      have : dst.row = frm.row := by rw [← hst]
      simp [this, Math.sign]
    have hc : Math.sign (dst.col - frm.col) = 0 := by
      have : dst.col = frm.col := by rw [← hst]
      simp [this, Math.sign]
    refine ⟨?_, fun k hk hk2 => by omega⟩
    have e1 : frm.row = dst.row := by rw [← hst]
    have e2 : frm.col = dst.col := by rw [← hst]
    obtain ⟨f, hfu⟩ : ∃ f, clearPathFuel frm dst = f + 1 :=
      ⟨clearPathFuel frm dst - 1, by unfold clearPathFuel; omega⟩
    show clearPathLoop board (Math.sign (dst.row - frm.row)) (Math.sign (dst.col - frm.col)) dst
      (clearPathFuel frm dst) (frm.row + Math.sign (dst.row - frm.row))
      (frm.col + Math.sign (dst.col - frm.col)) = .ok true
    rw [hr, hc, add_zero, add_zero, hfu, e1, e2]
    simp [clearPathLoop]
  · obtain ⟨n, hn⟩ : ∃ n, steps frm dst = n + 1 := ⟨steps frm dst - 1, by omega⟩
    have hst := pathSquare_steps hf hd ha
    have hfuel : n < clearPathFuel frm dst := by
      unfold clearPathFuel; unfold steps at hn; omega
    have hrow : dst.row = frm.row + Math.sign (dst.row - frm.row)
        + n * Math.sign (dst.row - frm.row) := by
      have : (pathSquare frm dst (steps frm dst)).row = dst.row := by rw [hst]
      rw [hn] at this
      simp only [pathSquare] at this
      push_cast at this
      linarith
    have hcol : dst.col = frm.col + Math.sign (dst.col - frm.col)
        + n * Math.sign (dst.col - frm.col) := by
      have : (pathSquare frm dst (steps frm dst)).col = dst.col := by rw [hst]
      rw [hn] at this
      simp only [pathSquare] at this
      push_cast at this
      linarith
    have shift : ∀ k : Nat,
        (⟨frm.row + Math.sign (dst.row - frm.row) + k * Math.sign (dst.row - frm.row),
          frm.col + Math.sign (dst.col - frm.col) + k * Math.sign (dst.col - frm.col)⟩ : Square)
          = pathSquare frm dst (k + 1) := by
      intro k
      simp only [pathSquare, Square.mk.injEq]
      constructor <;> (push_cast; ring)
    have hin : ∀ k : Nat, k < n →
        (0 ≤ frm.row + Math.sign (dst.row - frm.row) + k * Math.sign (dst.row - frm.row) ∧
          frm.row + Math.sign (dst.row - frm.row) + k * Math.sign (dst.row - frm.row) < 8) ∧
        (0 ≤ frm.col + Math.sign (dst.col - frm.col) + k * Math.sign (dst.col - frm.col) ∧
          frm.col + Math.sign (dst.col - frm.col) + k * Math.sign (dst.col - frm.col) < 8) := by
      intro k hk
      have hb := pathSquare_inBounds hf hd ha (k := k + 1) (by omega)
      rw [← shift k] at hb
      exact ⟨⟨hb.1, hb.2.1⟩, ⟨hb.2.2.1, hb.2.2.2⟩⟩
    have key := clearPathLoop_spec board _ _ dst (sign_ne_zero_of_steps hpos) n
      (clearPathFuel frm dst) _ _ hfuel hrow hcol hin
    have cell : ∀ k : Nat, getCell board
        (frm.row + Math.sign (dst.row - frm.row) + k * Math.sign (dst.row - frm.row))
        (frm.col + Math.sign (dst.col - frm.col) + k * Math.sign (dst.col - frm.col))
        = getCell board (pathSquare frm dst (k + 1)).row (pathSquare frm dst (k + 1)).col := by
      intro k; rw [← shift k]
    rcases key with ⟨h1, h2⟩ | ⟨h1, k, hk, p, hp⟩
    · left
      refine ⟨h1, fun k hk hk2 => ?_⟩
      obtain ⟨j, rfl⟩ : ∃ j, k = j + 1 := ⟨k - 1, by omega⟩
      rw [← cell j]
      exact h2 j (by omega)
    · right
      exact ⟨h1, k + 1, by omega, by omega, p, by rw [← cell k]; exact hp⟩

theorem pawnMove_total (piece : Piece) (target : Option Piece) {frm : Square} (dst : Square)
    (hf : frm.InBounds) (board : Board) : ∃ v, pawnMove piece target frm dst board = .ok v := by
  by_cases h : frm.row = (if piece.color = .w then 1 else 6) ∧ frm.col = dst.col ∧
      dst.row = frm.row + 2 * (if piece.color = .w then 1 else -1) ∧ target.isNone = true
  · have hrow : 0 ≤ frm.row + (if piece.color = .w then 1 else -1) ∧
        frm.row + (if piece.color = .w then 1 else -1) < 8 := by
      have h1 := h.1
      split_ifs at h1 ⊢ <;> omega
    obtain ⟨mid, hmid⟩ := getCell_ok_of_inBounds board hrow ⟨hf.2.2.1, hf.2.2.2⟩
    simp only [pawnMove, if_pos h, hmid]
    exact ⟨_, rfl⟩
  · simp only [pawnMove, if_neg h]
    exact ⟨_, rfl⟩

theorem pieceSwitch_total (type : Kind) (piece : Piece) (target : Option Piece)
    {frm dst : Square} (hf : frm.InBounds) (hd : dst.InBounds) (board : Board) :
    ∃ v, pieceSwitch type piece target frm dst board = .ok v := by
  have cp : Aligned frm dst → ∃ v, clearPath frm dst board = .ok v := by
    intro ha
    rcases clearPath_spec board hf hd ha with h | h
    · exact ⟨true, h.1⟩
    · exact ⟨false, h.1⟩
  cases type with
  | p => exact pawnMove_total piece target dst hf board
  | r =>
    by_cases hs : dst.row - frm.row = 0 ∨ dst.col - frm.col = 0
    · simp only [pieceSwitch, if_pos hs]
      exact cp (by unfold Aligned; tauto)
    · simp only [pieceSwitch, if_neg hs]; exact ⟨_, rfl⟩
  | b =>
    by_cases hs : Math.abs (dst.row - frm.row) = Math.abs (dst.col - frm.col)
    · simp only [pieceSwitch, if_pos hs]
      exact cp (by unfold Aligned; tauto)
    · simp only [pieceSwitch, if_neg hs]; exact ⟨_, rfl⟩
  | q =>
    by_cases hs : Math.abs (dst.row - frm.row) = Math.abs (dst.col - frm.col) ∨
        dst.row - frm.row = 0 ∨ dst.col - frm.col = 0
    · simp only [pieceSwitch, if_pos hs]
      exact cp (by unfold Aligned; tauto)
    · simp only [pieceSwitch, if_neg hs]; exact ⟨_, rfl⟩
  | n => exact ⟨_, rfl⟩
  | k => exact ⟨_, rfl⟩

theorem isInBounds_of_inBounds {s : Square} (h : s.InBounds) : isInBounds s.row s.col = true := by
  obtain ⟨h1, h2, h3, h4⟩ := h
  simp [isInBounds, h1, h2, h3, h4]

/-- Unfolding of `isValidPieceMove` once both cells have been read. -/
theorem isValidPieceMove_eq (turn : Side) (type : Kind) (frm dst : Square) (board : Board)
    (ignoreTurn : Bool) (piece : Piece) (target : Option Piece)
    (h1 : getCell board frm.row frm.col = .ok (some piece))
    (h2 : getCell board dst.row dst.col = .ok target) :
    isValidPieceMove turn type frm dst board ignoreTurn =
      if !ignoreTurn && decide (piece.color ≠ turn.initial) then .ok false
      else if !isInBounds dst.row dst.col then .ok false
      else if sameColor target piece then .ok false
      else pieceSwitch type piece target frm dst board := by
  simp only [isValidPieceMove, h1, h2]

theorem isValidPieceMove_total (turn : Side) (type : Kind) {frm dst : Square}
    (hf : frm.InBounds) (hd : dst.InBounds) (board : Board) (ignoreTurn : Bool) :
    ∃ v, isValidPieceMove turn type frm dst board ignoreTurn = .ok v := by
  obtain ⟨p1, h1⟩ := getCell_ok_of_inBounds board ⟨hf.1, hf.2.1⟩ ⟨hf.2.2.1, hf.2.2.2⟩
  obtain ⟨p2, h2⟩ := getCell_ok_of_inBounds board ⟨hd.1, hd.2.1⟩ ⟨hd.2.2.1, hd.2.2.2⟩
  cases p1 with
  | none => exact ⟨false, by simp only [isValidPieceMove, h1, h2]⟩
  | some piece =>
    rw [isValidPieceMove_eq turn type frm dst board ignoreTurn piece p2 h1 h2]
    by_cases c1 : (!ignoreTurn && decide (piece.color ≠ turn.initial)) = true
    · rw [if_pos c1]; exact ⟨false, rfl⟩
    rw [if_neg c1]
    by_cases c2 : (!isInBounds dst.row dst.col) = true
    · rw [if_pos c2]; exact ⟨false, rfl⟩
    rw [if_neg c2]
    by_cases c3 : sameColor p2 piece = true
    · rw [if_pos c3]; exact ⟨false, rfl⟩
    rw [if_neg c3]
    exact pieceSwitch_total type piece p2 hf hd board

/-- What an accepted shape test tells about the two cells. -/
theorem isValidPieceMove_true (turn : Side) (type : Kind) (frm dst : Square) (board : Board)
    (ignoreTurn : Bool) (h : isValidPieceMove turn type frm dst board ignoreTurn = .ok true) :
    ∃ piece target, getCell board frm.row frm.col = .ok (some piece) ∧
      getCell board dst.row dst.col = .ok target ∧
      (ignoreTurn = true ∨ piece.color = turn.initial) ∧
      isInBounds dst.row dst.col = true ∧ sameColor target piece = false ∧
      pieceSwitch type piece target frm dst board = .ok true := by
  unfold isValidPieceMove at h
  cases h1 : getCell board frm.row frm.col with
  | error e => rw [h1] at h; simp at h
  | ok p1 =>
    cases h2 : getCell board dst.row dst.col with
    | error e => rw [h1, h2] at h; simp at h
    | ok p2 =>
      rw [h1, h2] at h
      cases p1 with
      | none => simp at h
      | some piece =>
        simp only [] at h
        by_cases c1 : (!ignoreTurn && decide (piece.color ≠ turn.initial)) = true
        · rw [if_pos c1] at h; simp at h
        rw [if_neg c1] at h
        by_cases c2 : (!isInBounds dst.row dst.col) = true
        · rw [if_pos c2] at h; simp at h
        rw [if_neg c2] at h
        by_cases c3 : sameColor p2 piece = true
        · rw [if_pos c3] at h; simp at h
        rw [if_neg c3] at h
        refine ⟨piece, p2, rfl, rfl, ?_, by simpa using c2, by simpa using c3, h⟩
        cases ignoreTurn with
        | true => exact Or.inl rfl
        | false => right; simpa using c1

/-- With `ignoreTurn` set the result does not depend on `this.turn`, and a move
valid for the side to move is valid with `ignoreTurn` set. -/
theorem isValidPieceMove_ignoreTurn (turn turn2 : Side) (type : Kind) (frm dst : Square)
    (board : Board) (ignoreTurn : Bool)
    (h : isValidPieceMove turn type frm dst board ignoreTurn = .ok true) :
    isValidPieceMove turn2 type frm dst board true = .ok true := by
  obtain ⟨piece, target, h1, h2, _, h4, h5, h6⟩ :=
    isValidPieceMove_true turn type frm dst board ignoreTurn h
  rw [isValidPieceMove_eq turn2 type frm dst board true piece target h1 h2]
  simp [h4, h5, h6]

theorem isValidPieceMove_turn_irrel (turn turn2 : Side) (type : Kind) (frm dst : Square)
    (board : Board) :
    isValidPieceMove turn type frm dst board true =
      isValidPieceMove turn2 type frm dst board true := by
  simp [isValidPieceMove]

theorem isSquareAttackedLoop_turn_irrel (turn turn2 : Side) (row col : Int) (byColor : Side)
    (board : Board) (l : List (Fin 8 × Fin 8)) :
    isSquareAttackedLoop turn row col byColor board l =
      isSquareAttackedLoop turn2 row col byColor board l := by
  induction l with
  | nil => rfl
  | cons s rest ih =>
    simp only [isSquareAttackedLoop, ih,
      isValidPieceMove_turn_irrel turn turn2]

theorem isInCheck_turn_irrel (turn turn2 : Side) (color : Side) (board : Board) :
    isInCheck turn color board = isInCheck turn2 color board := by
  simp only [isInCheck, isSquareAttacked, isSquareAttackedLoop_turn_irrel turn turn2]

theorem isSquareAttackedLoop_total (turn : Side) {row col : Int}
    (hd : (Square.mk row col).InBounds) (byColor : Side) (board : Board)
    (l : List (Fin 8 × Fin 8)) :
    ∃ v, isSquareAttackedLoop turn row col byColor board l = .ok v := by
  induction l with
  | nil => exact ⟨false, rfl⟩
  | cons s rest ih =>
    unfold isSquareAttackedLoop
    cases hb : board s.1 s.2 with
    | none => simpa using ih
    | some p =>
      simp only []
      by_cases hc : p.color ≠ byColor.initial
      · rw [if_pos hc]; exact ih
      · rw [if_neg hc]
        obtain ⟨v, hv⟩ := isValidPieceMove_total turn p.type (sq_inBounds s.1 s.2) hd board true
        rw [hv]
        cases v with
        | true => exact ⟨true, rfl⟩
        | false => exact ih

/-- A loop of `isSquareAttacked` that ends with `false` met no piece of the
attacking colour with a valid move onto the square. -/
theorem isSquareAttackedLoop_false (turn : Side) (row col : Int) (byColor : Side)
    (board : Board) (l : List (Fin 8 × Fin 8))
    (h : isSquareAttackedLoop turn row col byColor board l = .ok false) :
    ∀ s ∈ l, ∀ p, board s.1 s.2 = some p → p.color = byColor.initial →
      isValidPieceMove turn p.type (sq s.1 s.2) ⟨row, col⟩ board true ≠ .ok true := by
  induction l with
  | nil => intro s hs; simp at hs
  | cons s0 rest ih =>
    unfold isSquareAttackedLoop at h
    intro s hs p hp hc
    cases hb : board s0.1 s0.2 with
    | none =>
      rw [hb] at h
      rcases List.mem_cons.mp hs with rfl | hs
      · rw [hb] at hp; simp at hp
      · exact ih h s hs p hp hc
    | some p0 =>
      rw [hb] at h
      simp only [] at h
      by_cases hc0 : p0.color ≠ byColor.initial
      · rw [if_pos hc0] at h
        rcases List.mem_cons.mp hs with rfl | hs
        · rw [hb] at hp
          cases hp
          exact absurd hc hc0
        · exact ih h s hs p hp hc
      · rw [if_neg hc0] at h
        cases hv : isValidPieceMove turn p0.type (sq s0.1 s0.2) ⟨row, col⟩ board true with
        | error e => rw [hv] at h; simp at h
        | ok v =>
          rw [hv] at h
          cases v with
          | true => simp at h
          | false =>
            rcases List.mem_cons.mp hs with rfl | hs
            · rw [hb] at hp
              cases hp
              rw [hv]; simp
            · exact ih h s hs p hp hc

theorem findKing_some (color : Side) (board : Board) (s : Square)
    (h : findKing color board = some s) :
    ∃ i j : Fin 8, s = sq i j ∧ isKingOf color (board i j) = true := by
  unfold findKing at h
  cases hf : allSquares.find? (fun s => isKingOf color (board s.1 s.2)) with
  | none => rw [hf] at h; simp at h
  | some t =>
    rw [hf] at h
    simp only [Option.some.injEq] at h
    exact ⟨t.1, t.2, h.symm, by simpa using List.find?_some hf⟩

theorem findKing_unique (color : Side) (board : Board) (i j : Fin 8)
    (h : ∀ s : Fin 8 × Fin 8, isKingOf color (board s.1 s.2) = true ↔ s = (i, j)) :
    findKing color board = some (sq i j) := by
  unfold findKing
  cases hf : allSquares.find? (fun s => isKingOf color (board s.1 s.2)) with
  | none =>
    have := List.find?_eq_none.mp hf (i, j) (mem_allSquares (i, j))
    have h2 := (h (i, j)).mpr rfl
    simp only [h2, not_true_eq_false] at this
  | some t =>
    have h1 : isKingOf color (board t.1 t.2) = true := by simpa using List.find?_some hf
    have := (h t).mp h1
    subst this
    rfl

theorem isInCheck_total (turn : Side) (color : Side) (board : Board) :
    ∃ v, isInCheck turn color board = .ok v := by
  unfold isInCheck
  cases hk : findKing color board with
  | none => exact ⟨false, rfl⟩
  | some kp =>
    obtain ⟨i, j, rfl, _⟩ := findKing_some color board kp hk
    exact isSquareAttackedLoop_total turn (sq_inBounds i j) _ board allSquares

theorem isCheckmateInner_total (turn color : Side) (board : Board) (p : Piece) (r1 c1 : Fin 8)
    (l : List (Fin 8 × Fin 8)) :
    ∃ v, isCheckmateInner turn color board p r1 c1 l = .ok v := by
  induction l with
  | nil => exact ⟨true, rfl⟩
  | cons d rest ih =>
    unfold isCheckmateInner
    obtain ⟨v, hv⟩ := isValidPieceMove_total turn p.type (sq_inBounds r1 c1)
      (sq_inBounds d.1 d.2) board false
    rw [hv]
    cases v with
    | false => exact ih
    | true =>
      obtain ⟨w, hw⟩ := isInCheck_total turn color (trialBoard board p (sq r1 c1) (sq d.1 d.2))
      simp only []
      rw [hw]
      cases w with
      | false => exact ⟨false, rfl⟩
      | true => exact ih

theorem isCheckmateOuter_total (turn color : Side) (board : Board)
    (l : List (Fin 8 × Fin 8)) :
    ∃ v, isCheckmateOuter turn color board l = .ok v := by
  induction l with
  | nil => exact ⟨true, rfl⟩
  | cons s rest ih =>
    unfold isCheckmateOuter
    cases hb : board s.1 s.2 with
    | none => exact ih
    | some p =>
      simp only []
      by_cases hc : p.color ≠ color.initial
      · rw [if_pos hc]; exact ih
      · rw [if_neg hc]
        obtain ⟨v, hv⟩ := isCheckmateInner_total turn color board p s.1 s.2 allSquares
        rw [hv]
        cases v with
        | false => exact ⟨false, rfl⟩
        | true => exact ih

/-- The method `isCheckmate` returns a value in every engine state. -/
theorem isCheckmate_total (g : Game) (color : Side) : ∃ v, isCheckmate g color = .ok v :=
  isCheckmateOuter_total g.turn color g.board allSquares

theorem setCell_inBounds (board : Board) {s : Square} (h : s.InBounds) (v : Option Piece) :
    setCell board s.row s.col v = .ok (board.set s.row s.col v) := by
  have : 0 ≤ s.row ∧ s.row < 8 := ⟨h.1, h.2.1⟩
  simp only [setCell, if_pos this]

/-- The four ways a call of `move` on squares of the grid can end. -/
theorem move_spec (g : Game) {frm dst : Square} (hf : frm.InBounds) (hd : dst.InBounds) :
    (getCell g.board frm.row frm.col = .ok none ∧
      move g frm dst = (.ok (.error .noPieceAtSource), g)) ∨
    (∃ piece, getCell g.board frm.row frm.col = .ok (some piece) ∧
      isValidPieceMove g.turn piece.type frm dst g.board false = .ok false ∧
      move g frm dst = (.ok (.error .invalidMove), g)) ∨
    (∃ piece, getCell g.board frm.row frm.col = .ok (some piece) ∧
      isValidPieceMove g.turn piece.type frm dst g.board false = .ok true ∧
      isInCheck g.turn g.turn (trialBoard g.board piece frm dst) = .ok true ∧
      move g frm dst = (.ok (.error .moveIntoCheck), g)) ∨
    (∃ piece over, getCell g.board frm.row frm.col = .ok (some piece) ∧
      isValidPieceMove g.turn piece.type frm dst g.board false = .ok true ∧
      isInCheck g.turn g.turn (trialBoard g.board piece frm dst) = .ok false ∧
      isCheckmate ⟨trialBoard g.board piece frm dst, g.turn.other⟩ g.turn.other = .ok over ∧
      move g frm dst =
        (.ok (.ok ⟨trialBoard g.board piece frm dst, g.turn.other, over,
          if over then some g.turn else none⟩),
          ⟨trialBoard g.board piece frm dst, g.turn.other⟩)) := by
  obtain ⟨cell, hcell⟩ := getCell_ok_of_inBounds g.board ⟨hf.1, hf.2.1⟩ ⟨hf.2.2.1, hf.2.2.2⟩
  cases cell with
  | none =>
    left
    exact ⟨hcell, by simp only [move, hcell]⟩
  | some piece =>
    right
    obtain ⟨v, hv⟩ := isValidPieceMove_total g.turn piece.type hf hd g.board false
    cases v with
    | false =>
      left
      exact ⟨piece, hcell, hv, by simp only [move, hcell, hv]⟩
    | true =>
      right
      have hs1 := setCell_inBounds (cloneBoard g.board) hd (some ⟨piece.type, piece.color⟩)
      have hs2 := setCell_inBounds
        ((cloneBoard g.board).set dst.row dst.col (some ⟨piece.type, piece.color⟩)) hf none
      obtain ⟨w, hw⟩ := isInCheck_total g.turn g.turn (trialBoard g.board piece frm dst)
      cases w with
      | true =>
        left
        refine ⟨piece, hcell, hv, hw, ?_⟩
        unfold trialBoard at hw
        simp only [move, hcell, hv, hs1, hs2, hw]
      | false =>
        right
        obtain ⟨over, hover⟩ :=
          isCheckmate_total ⟨trialBoard g.board piece frm dst, g.turn.other⟩ g.turn.other
        refine ⟨piece, over, hcell, hv, hw, hover, ?_⟩
        unfold trialBoard at hw hover
        unfold Side.other at hover
        simp only [move, hcell, hv, hs1, hs2, hw, hover]
        rfl

theorem other_other (s : Side) : s.other.other = s := by
  cases s <;> rfl

theorem trialBoard_apply (board : Board) (p : Piece) (f d s : Fin 8 × Fin 8) :
    trialBoard board p (sq f.1 f.2) (sq d.1 d.2) s.1 s.2 =
      if s = f then none else if s = d then some p else board s.1 s.2 := by
  obtain ⟨f1, f2⟩ := f
  obtain ⟨d1, d2⟩ := d
  obtain ⟨s1, s2⟩ := s
  simp only [trialBoard, Board.set, sq, cloneBoard_eq, Nat.cast_inj, Fin.val_inj, Prod.mk.injEq]

theorem getCell_inBounds_eq (board : Board) {s : Square} (h : s.InBounds) :
    ∃ i j : Fin 8, s = sq i j ∧ getCell board s.row s.col = .ok (board i j) := by
  obtain ⟨i, j, rfl⟩ := inBounds_eq_sq h
  exact ⟨i, j, rfl, getCell_sq board i j⟩

theorem sameColor_self (p : Piece) : sameColor (some p) p = true := by
  simp [sameColor]

theorem isKingOf_color {color : Side} {p : Piece} (h : isKingOf color (some p) = true) :
    p.type = .k ∧ p.color = color.initial := by
  simpa [isKingOf] using h

/-- A trial move that does not land on a king of the colour keeps that colour
at exactly one king. -/
theorem uniqueKing_trial (color : Side) (board : Board) (p : Piece) (f d : Fin 8 × Fin 8)
    (hk : UniqueKing color board) (hp : board f.1 f.2 = some p) (hfd : f ≠ d)
    (hd : isKingOf color (board d.1 d.2) = false) :
    UniqueKing color (trialBoard board p (sq f.1 f.2) (sq d.1 d.2)) := by
  obtain ⟨k, hk⟩ := hk
  by_cases hpk : isKingOf color (some p) = true
  · have hkf : f = k := (hk f).mp (by rw [hp]; exact hpk)
    subst hkf
    refine ⟨d, fun s => ?_⟩
    rw [trialBoard_apply]
    by_cases h1 : s = f
    · subst h1
      simp [isKingOf, hfd]
    · by_cases h2 : s = d
      · subst h2
        simp [h1, hpk]
      · have : ¬ isKingOf color (board s.1 s.2) = true := fun h => h1 ((hk s).mp h)
        simp [h1, h2, this]
  · have hkf : k ≠ f := by
      intro h
      subst h
      exact hpk (by rw [← hp]; exact (hk k).mpr rfl)
    have hkd : k ≠ d := by
      intro h
      subst h
      have := (hk k).mpr rfl
      rw [hd] at this
      exact Bool.false_ne_true this
    refine ⟨k, fun s => ?_⟩
    rw [trialBoard_apply]
    by_cases h1 : s = f
    · subst h1
      simp [isKingOf, Ne.symm hkf]
    · by_cases h2 : s = d
      · subst h2
        simp [h1, hpk, Ne.symm hkd]
      · simp [h1, h2, hk s]

/-- In a state satisfying the invariant a move valid for the side to move does
not land on a king. -/
theorem valid_not_on_king (g : Game) (hinv : Inv g) (p : Piece) (f d : Fin 8 × Fin 8)
    (hp : g.board f.1 f.2 = some p)
    (hv : isValidPieceMove g.turn p.type (sq f.1 f.2) (sq d.1 d.2) g.board false = .ok true)
    (color : Side) : isKingOf color (g.board d.1 d.2) = false ∧ f ≠ d := by
  obtain ⟨piece, target, h1, h2, h3, _, h5, _⟩ :=
    isValidPieceMove_true g.turn p.type (sq f.1 f.2) (sq d.1 d.2) g.board false hv
  rw [getCell_sq, hp] at h1
  rw [getCell_sq] at h2
  simp only [Except.ok.injEq, Option.some.injEq] at h1 h2
  subst h1 h2
  have hcol : p.color = g.turn.initial := by
    rcases h3 with h | h
    · exact absurd h (by decide)
    · exact h
  have hfd : f ≠ d := by
    intro h
    subst h
    rw [hp, sameColor_self] at h5
    exact Bool.noConfusion h5
  refine ⟨?_, hfd⟩
  cases hq : g.board d.1 d.2 with
  | none => rfl
  | some q =>
    by_contra hking
    have hking : isKingOf color (some q) = true := by simpa using hking
    obtain ⟨_, hqc⟩ := isKingOf_color hking
    rw [hq] at h5
    have hne : q.color ≠ p.color := by simpa [sameColor] using h5
    have hcolor : color = g.turn.other := by
      cases color <;> cases hg : g.turn <;> simp_all [Side.initial, Side.other]
    subst hcolor
    have huniq : UniqueKing g.turn.other g.board := by
      cases hg : g.turn
      · simpa [Side.other] using hinv.black
      · simpa [Side.other] using hinv.white
    obtain ⟨k, hk⟩ := huniq
    have hkd : d = k := (hk d).mp (by rw [hq]; exact hking)
    subst hkd
    have hfind := findKing_unique g.turn.other g.board d.1 d.2 hk
    have hsafe := hinv.safe
    unfold isInCheck at hsafe
    rw [hfind] at hsafe
    simp only [isSquareAttacked] at hsafe
    have hby : (if g.turn.other = Side.white then Side.black else Side.white) = g.turn := by
      cases g.turn <;> rfl
    rw [hby] at hsafe
    exact isSquareAttackedLoop_false g.turn _ _ g.turn g.board allSquares hsafe f
      (mem_allSquares f) p hp hcol
      (isValidPieceMove_ignoreTurn g.turn g.turn p.type (sq f.1 f.2) (sq d.1 d.2) g.board false hv)

set_option maxRecDepth 100000 in
theorem inv_new : Inv Game.new where
  white := ⟨(0, 4), by decide!⟩
  black := ⟨(7, 4), by decide!⟩
  safe := by rfl

/-- An accepted move keeps the invariant; the other calls leave the state as
it was. -/
theorem inv_move (g : Game) (hinv : Inv g) {frm dst : Square} (hf : frm.InBounds)
    (hd : dst.InBounds) : Inv (move g frm dst).2 := by
  rcases move_spec g hf hd with ⟨_, hm⟩ | ⟨_, _, _, hm⟩ | ⟨_, _, _, _, hm⟩ |
    ⟨piece, over, hcell, hv, hw, _, hm⟩
  · rw [hm]; exact hinv
  · rw [hm]; exact hinv
  · rw [hm]; exact hinv
  · rw [hm]
    obtain ⟨fi, fj, rfl⟩ := inBounds_eq_sq hf
    obtain ⟨di, dj, rfl⟩ := inBounds_eq_sq hd
    rw [getCell_sq] at hcell
    simp only [Except.ok.injEq] at hcell
    have hw0 := valid_not_on_king g hinv piece (fi, fj) (di, dj) hcell hv
    refine ⟨?_, ?_, ?_⟩
    · exact uniqueKing_trial .white g.board piece (fi, fj) (di, dj) hinv.white hcell
        (hw0 .white).2 (hw0 .white).1
    · exact uniqueKing_trial .black g.board piece (fi, fj) (di, dj) hinv.black hcell
        (hw0 .black).2 (hw0 .black).1
    · show isInCheck g.turn.other g.turn.other.other _ = .ok false
      rw [other_other, isInCheck_turn_irrel g.turn.other g.turn]
      exact hw

theorem reachable_inv (g : Game) (h : Reachable g) : Inv g := by
  induction h with
  | init => exact inv_new
  | step g frm dst _ hf hd ih => exact inv_move g ih hf hd

theorem countP_eq_one {α : Type} [DecidableEq α] (k : α) (l : List α) (hn : l.Nodup)
    (hk : k ∈ l) : l.countP (fun s => decide (s = k)) = 1 := by
  induction l with
  | nil => simp at hk
  | cons a l ih =>
    rw [List.nodup_cons] at hn
    by_cases hak : a = k
    · subst hak
      have h0 : l.countP (fun s => decide (s = a)) = 0 := by
        rw [List.countP_eq_zero]
        intro s hs
        have : s ≠ a := fun h => hn.1 (h ▸ hs)
        simpa using this
      simp [List.countP_cons, h0]
    · have hk2 : k ∈ l := by
        rcases List.mem_cons.mp hk with h | h
        · exact absurd h.symm hak
        · exact h
      simp [List.countP_cons, hak, ih hn.2 hk2]

theorem kingCount_of_unique (color : Side) (board : Board) (h : UniqueKing color board) :
    kingCount color board = 1 := by
  obtain ⟨k, hk⟩ := h
  unfold kingCount
  have : allSquares.countP (fun s => isKingOf color (board s.1 s.2)) =
      allSquares.countP (fun s => decide (s = k)) := by
    apply List.countP_congr
    intro s _
    simp [hk s]
  rw [this]
  exact countP_eq_one k allSquares nodup_allSquares (mem_allSquares k)

theorem pawnMove_true_iff (piece : Piece) (target : Option Piece) {frm : Square}
    (dst : Square) (hf : frm.InBounds) (board : Board) :
    pawnMove piece target frm dst board = .ok true ↔
      (dst.row = frm.row + (if piece.color = .w then 1 else -1) ∧ dst.col = frm.col ∧
        target = none) ∨
      (frm.row = (if piece.color = .w then 1 else 6) ∧
        dst.row = frm.row + 2 * (if piece.color = .w then 1 else -1) ∧ dst.col = frm.col ∧
        target = none ∧
        getCell board (frm.row + (if piece.color = .w then 1 else -1)) frm.col = .ok none) ∨
      (dst.row = frm.row + (if piece.color = .w then 1 else -1) ∧
        (dst.col - frm.col = 1 ∨ dst.col - frm.col = -1) ∧ ∃ t, target = some t) := by
  by_cases h : frm.row = (if piece.color = .w then 1 else 6) ∧ frm.col = dst.col ∧
      dst.row = frm.row + 2 * (if piece.color = .w then 1 else -1) ∧ target.isNone = true
  · have hrow : 0 ≤ frm.row + (if piece.color = .w then 1 else -1) ∧
        frm.row + (if piece.color = .w then 1 else -1) < 8 := by
      have h1 := h.1
      split_ifs at h1 ⊢ <;> omega
    obtain ⟨mid, hmid⟩ := getCell_ok_of_inBounds board hrow ⟨hf.2.2.1, hf.2.2.2⟩
    simp only [pawnMove, if_pos h, hmid]
    obtain ⟨h1, h2, h3, h4⟩ := h
    have ht : target = none := by simpa using h4
    subst ht
    cases mid <;> cases hc : piece.color <;> simp [hc, Math.abs] at h1 h3 ⊢ <;> omega
  · simp only [pawnMove, if_neg h]
    cases target <;> cases hc : piece.color <;> simp [hc, Math.abs] at h ⊢ <;>
      (try split_ifs) <;> omega

/-- A destination whose row is outside `0..7`: the read of `board[to.row]`
in `isValidPieceMove` throws, whatever the position, once the source holds a
piece. -/
theorem move_dst_row_outside (g : Game) (frm dst : Square) (piece : Piece)
    (hcell : getCell g.board frm.row frm.col = .ok (some piece))
    (hrow : dst.row < 0 ∨ 8 ≤ dst.row) :
    move g frm dst = (.error .typeError, g) := by
  have hr : ¬ (0 ≤ dst.row ∧ dst.row < 8) := by omega
  have hread : getCell g.board dst.row dst.col = .error .typeError := by
    simp only [getCell, dif_neg hr]
  simp only [move, hcell, isValidPieceMove, hread]

/-- A destination whose row is inside `0..7` and whose column is outside: the
cell reads as `undefined`, the bounds test fails and `move` returns
"Invalid move". -/
theorem move_dst_col_outside (g : Game) (frm dst : Square) (piece : Piece)
    (hcell : getCell g.board frm.row frm.col = .ok (some piece))
    (hrow : 0 ≤ dst.row ∧ dst.row < 8) (hcol : dst.col < 0 ∨ 8 ≤ dst.col) :
    move g frm dst = (.ok (.error .invalidMove), g) := by
  have hc : ¬ (0 ≤ dst.col ∧ dst.col < 8) := by omega
  have hread : getCell g.board dst.row dst.col = .ok none := by
    simp only [getCell, dif_pos hrow, dif_neg hc]
  have hb : isInBounds dst.row dst.col = false := by
    simp only [isInBounds]
    rcases hcol with h | h
    · have : ¬ dst.col ≥ 0 := by omega
      simp [this]
    · have : ¬ dst.col < 8 := by omega
      simp [this]
  have hv : isValidPieceMove g.turn piece.type frm dst g.board false = .ok false := by
    rw [isValidPieceMove_eq g.turn piece.type frm dst g.board false piece none hcell hread]
    simp [hb]
  simp only [move, hcell, hv]

theorem abs_eq_natAbs (x : Int) (n : Nat) : Math.abs x = (n : Int) ↔ x.natAbs = n := by
  unfold Math.abs
  split_ifs <;> omega

theorem isCheckmateInner_false_iff (turn color : Side) (board : Board) (p : Piece)
    (r1 c1 : Fin 8) (l : List (Fin 8 × Fin 8)) :
    isCheckmateInner turn color board p r1 c1 l = .ok false ↔
      ∃ d ∈ l, isValidPieceMove turn p.type (sq r1 c1) (sq d.1 d.2) board false = .ok true ∧
        isInCheck turn color (trialBoard board p (sq r1 c1) (sq d.1 d.2)) = .ok false := by
  induction l with
  | nil => simp [isCheckmateInner]
  | cons d rest ih =>
    unfold isCheckmateInner
    obtain ⟨v, hv⟩ := isValidPieceMove_total turn p.type (sq_inBounds r1 c1)
      (sq_inBounds d.1 d.2) board false
    rw [hv]
    cases v with
    | false =>
      simp only [List.mem_cons, exists_eq_or_imp, hv]
      rw [ih]
      simp
    | true =>
      obtain ⟨w, hw⟩ := isInCheck_total turn color (trialBoard board p (sq r1 c1) (sq d.1 d.2))
      simp only []
      rw [hw]
      cases w with
      | false =>
        simp only [List.mem_cons, exists_eq_or_imp, hv, hw]
        simp
      | true =>
        simp only [List.mem_cons, exists_eq_or_imp, hv, hw]
        rw [ih]
        simp

theorem isCheckmateOuter_false_iff (turn color : Side) (board : Board)
    (l : List (Fin 8 × Fin 8)) :
    isCheckmateOuter turn color board l = .ok false ↔
      ∃ s ∈ l, ∃ p, board s.1 s.2 = some p ∧ p.color = color.initial ∧
        isCheckmateInner turn color board p s.1 s.2 allSquares = .ok false := by
  induction l with
  | nil => simp [isCheckmateOuter]
  | cons s rest ih =>
    unfold isCheckmateOuter
    cases hb : board s.1 s.2 with
    | none =>
      simp only [List.mem_cons, exists_eq_or_imp, hb]
      rw [ih]
      simp
    | some p =>
      simp only []
      by_cases hc : p.color ≠ color.initial
      · rw [if_pos hc]
        simp only [List.mem_cons, exists_eq_or_imp, hb]
        rw [ih]
        simp [hc]
      · rw [if_neg hc]
        have hc2 : p.color = color.initial := by simpa using hc
        obtain ⟨v, hv⟩ := isCheckmateInner_total turn color board p s.1 s.2 allSquares
        rw [hv]
        cases v with
        | false =>
          simp only [List.mem_cons, exists_eq_or_imp, hb]
          simp [hc2, hv]
        | true =>
          simp only [List.mem_cons, exists_eq_or_imp, hb]
          rw [ih]
          simp [hv]

/-- The method `isCheckmate` returns `false` exactly when some pair of squares
escapes. -/
theorem isCheckmate_false_iff (g : Game) (color : Side) :
    isCheckmate g color = .ok false ↔ ∃ frm dst, Escapes g color frm dst := by
  unfold isCheckmate
  rw [isCheckmateOuter_false_iff]
  constructor
  · rintro ⟨s, _, p, hp, hc, hin⟩
    rw [isCheckmateInner_false_iff] at hin
    obtain ⟨d, _, hv, hk⟩ := hin
    exact ⟨sq s.1 s.2, sq d.1 d.2, sq_inBounds _ _, sq_inBounds _ _, p,
      by rw [getCell_sq, hp], hc, hv, hk⟩
  · rintro ⟨frm, dst, hf, hd, p, hp, hc, hv, hk⟩
    obtain ⟨fi, fj, rfl⟩ := inBounds_eq_sq hf
    obtain ⟨di, dj, rfl⟩ := inBounds_eq_sq hd
    rw [getCell_sq] at hp
    simp only [Except.ok.injEq] at hp
    refine ⟨(fi, fj), mem_allSquares _, p, hp, hc, ?_⟩
    rw [isCheckmateInner_false_iff]
    exact ⟨(di, dj), mem_allSquares _, hv, hk⟩

theorem isCheckmate_true_iff (g : Game) (color : Side) :
    isCheckmate g color = .ok true ↔ ¬ ∃ frm dst, Escapes g color frm dst := by
  rw [← isCheckmate_false_iff]
  obtain ⟨v, hv⟩ := isCheckmate_total g color
  rw [hv]
  cases v <;> simp

/-- On squares of the grid `move` is accepted exactly when the pair escapes for
the side to move. -/
theorem move_accepted_iff (g : Game) {frm dst : Square} (hf : frm.InBounds)
    (hd : dst.InBounds) :
    (∃ s, (move g frm dst).1 = .ok (.ok s)) ↔ Escapes g g.turn frm dst := by
  rcases move_spec g hf hd with ⟨hc, hm⟩ | ⟨piece, hc, hv, hm⟩ | ⟨piece, hc, hv, hw, hm⟩ |
    ⟨piece, over, hc, hv, hw, _, hm⟩
  · rw [hm]
    simp [Escapes, hc]
  · rw [hm]
    simp [Escapes, hc, hv]
  · rw [hm]
    simp [Escapes, hc, hv, hw]
  · rw [hm]
    obtain ⟨q, _, h1, _, h3, _⟩ := isValidPieceMove_true _ _ _ _ _ _ hv
    have hq : q = piece := by
      rw [hc] at h1
      simpa using h1.symm
    subst hq
    have hcol : q.color = g.turn.initial := by
      rcases h3 with h | h
      · exact absurd h (by decide)
      · exact h
    simp only [Except.ok.injEq, MoveResult.ok.injEq, exists_eq', true_iff]
    exact ⟨hf, hd, q, hc, hcol, hv, hw⟩

theorem countP_update {α : Type} [DecidableEq α] (k : α) (P Q : α → Bool)
    (h : ∀ x, x ≠ k → P x = Q x) (l : List α) (hn : l.Nodup) (hk : k ∈ l) :
    l.countP Q + (if P k then 1 else 0) = l.countP P + (if Q k then 1 else 0) := by
  induction l with
  | nil => simp at hk
  | cons a l ih =>
    rw [List.nodup_cons] at hn
    by_cases hak : a = k
    · subst hak
      have hPQ : l.countP P = l.countP Q := by
        apply List.countP_congr
        intro x hx
        have : x ≠ a := fun e => hn.1 (e ▸ hx)
        rw [h x this]
      simp only [List.countP_cons, hPQ]
      omega
    · have hk2 : k ∈ l := by
        rcases List.mem_cons.mp hk with e | e
        · exact absurd e.symm hak
        · exact e
      have := ih hn.2 hk2
      simp only [List.countP_cons, h a hak]
      omega

/-- The piece count after a trial move from an occupied square to a different
square. -/
theorem pieceCount_trial (board : Board) (p : Piece) (f d : Fin 8 × Fin 8)
    (hp : board f.1 f.2 = some p) (hfd : f ≠ d) :
    pieceCount (trialBoard board p (sq f.1 f.2) (sq d.1 d.2)) +
      (if (board d.1 d.2).isSome then 1 else 0) = pieceCount board := by
  have h1 := countP_update d (fun s => (board s.1 s.2).isSome)
    (fun s => (if s = d then some p else board s.1 s.2).isSome)
    (fun x hx => by simp [hx]) allSquares nodup_allSquares (mem_allSquares d)
  have h2 := countP_update f (fun s => (if s = d then some p else board s.1 s.2).isSome)
    (fun s => (trialBoard board p (sq f.1 f.2) (sq d.1 d.2) s.1 s.2).isSome)
    (fun x hx => by simp only [trialBoard_apply]; simp [hx]) allSquares nodup_allSquares
    (mem_allSquares f)
  simp only [trialBoard_apply, if_true, if_neg hfd, hp, Option.isSome_some,
    Option.isSome_none, Bool.false_eq_true, if_false] at h1 h2
  unfold pieceCount
  simp only [trialBoard_apply]
  omega


theorem isValidPieceMove_same_square (turn : Side) (type : Kind) {s : Square}
    (hs : s.InBounds) (board : Board) (ignoreTurn : Bool) :
    isValidPieceMove turn type s s board ignoreTurn = .ok false := by
  obtain ⟨cell, hcell⟩ := getCell_ok_of_inBounds board ⟨hs.1, hs.2.1⟩ ⟨hs.2.2.1, hs.2.2.2⟩
  cases cell with
  | none => simp only [isValidPieceMove, hcell]
  | some piece =>
    rw [isValidPieceMove_eq turn type s s board ignoreTurn piece (some piece) hcell hcell]
    simp [sameColor_self]

/-- A piece of a colour other than `this.turn[0]` fails the turn-respecting
`isValidPieceMove` on every pair of squares of the grid. -/
theorem isValidPieceMove_wrong_turn (turn : Side) (type : Kind) (r1 c1 : Fin 8)
    {dst : Square} (hd : dst.InBounds) (board : Board) (p : Piece)
    (hp : board r1 c1 = some p) (hc : p.color ≠ turn.initial) :
    isValidPieceMove turn type (sq r1 c1) dst board false = .ok false := by
  obtain ⟨target, h2⟩ := getCell_ok_of_inBounds board ⟨hd.1, hd.2.1⟩ ⟨hd.2.2.1, hd.2.2.2⟩
  have h1 : getCell board (sq r1 c1).row (sq r1 c1).col = .ok (some p) := by
    rw [getCell_sq, hp]
  rw [isValidPieceMove_eq turn type (sq r1 c1) dst board false p target h1 h2]
  simp [hc]

theorem isCheckmateInner_wrong_turn (turn color : Side) (board : Board) (p : Piece)
    (r1 c1 : Fin 8) (hp : board r1 c1 = some p) (hc : p.color ≠ turn.initial)
    (l : List (Fin 8 × Fin 8)) :
    isCheckmateInner turn color board p r1 c1 l = .ok true := by
  induction l with
  | nil => rfl
  | cons d rest ih =>
    unfold isCheckmateInner
    rw [isValidPieceMove_wrong_turn turn p.type r1 c1 (sq_inBounds d.1 d.2) board p hp hc]
    exact ih

theorem isCheckmateOuter_wrong_turn (turn color : Side) (board : Board)
    (h : color.initial ≠ turn.initial) (l : List (Fin 8 × Fin 8)) :
    isCheckmateOuter turn color board l = .ok true := by
  induction l with
  | nil => rfl
  | cons s rest ih =>
    unfold isCheckmateOuter
    cases hb : board s.1 s.2 with
    | none => exact ih
    | some p =>
      simp only []
      by_cases hc : p.color ≠ color.initial
      · rw [if_pos hc]; exact ih
      · rw [if_neg hc]
        have hc2 : p.color = color.initial := by simpa using hc
        rw [isCheckmateInner_wrong_turn turn color board p s.1 s.2 hb (by rw [hc2]; exact h)]
        exact ih

theorem clearPathLoopTraced_fst (board : Board) (dr dc : Int) (dst : Square) (fuel : Nat) :
    ∀ r c : Int, (clearPathLoopTraced board dr dc dst fuel r c).1 =
      clearPathLoop board dr dc dst fuel r c := by
  induction fuel with
  | zero => intro r c; rfl
  | succ f ih =>
    intro r c
    unfold clearPathLoopTraced clearPathLoop
    by_cases hc : r ≠ dst.row ∨ c ≠ dst.col
    · rw [if_pos hc, if_pos hc]
      cases hg : getCell board r c with
      | error e => rfl
      | ok v =>
        cases v with
        | some p => rfl
        | none => exact ih (r + dr) (c + dc)
    · rw [if_neg hc, if_neg hc]

theorem clearPathTraced_fst (frm dst : Square) (board : Board) :
    (clearPathTraced frm dst board).1 = clearPath frm dst board :=
  clearPathLoopTraced_fst board _ _ dst _ _ _

theorem pawnMoveTraced_fst (piece : Piece) (target : Option Piece) (frm dst : Square)
    (board : Board) :
    (pawnMoveTraced piece target frm dst board).1 = pawnMove piece target frm dst board := by
  by_cases h : frm.row = (if piece.color = .w then 1 else 6) ∧ frm.col = dst.col ∧
      dst.row = frm.row + 2 * (if piece.color = .w then 1 else -1) ∧ target.isNone = true
  · simp only [pawnMoveTraced, pawnMove, if_pos h]
    cases getCell board (frm.row + (if piece.color = .w then 1 else -1)) frm.col <;> rfl
  · simp only [pawnMoveTraced, pawnMove, if_neg h]

theorem pieceSwitchTraced_fst (type : Kind) (piece : Piece) (target : Option Piece)
    (frm dst : Square) (board : Board) :
    (pieceSwitchTraced type piece target frm dst board).1 =
      pieceSwitch type piece target frm dst board := by
  cases type <;> simp only [pieceSwitchTraced, pieceSwitch]
  · exact pawnMoveTraced_fst piece target frm dst board
  · split_ifs
    · exact clearPathTraced_fst frm dst board
    · rfl
  · split_ifs
    · exact clearPathTraced_fst frm dst board
    · rfl
  · split_ifs
    · exact clearPathTraced_fst frm dst board
    · rfl

/-- The traced method returns what `isValidPieceMove` returns. -/
theorem isValidPieceMoveTraced_fst (turn : Side) (type : Kind) (frm dst : Square)
    (board : Board) (ignoreTurn : Bool) :
    (isValidPieceMoveTraced turn type frm dst board ignoreTurn).1 =
      isValidPieceMove turn type frm dst board ignoreTurn := by
  unfold isValidPieceMoveTraced isValidPieceMove
  cases getCell board frm.row frm.col with
  | error e => rfl
  | ok pieceOpt =>
    cases getCell board dst.row dst.col with
    | error e => rfl
    | ok target =>
      cases pieceOpt with
      | none => rfl
      | some piece =>
        simp only []
        split_ifs
        · rfl
        · rfl
        · rfl
        · exact pieceSwitchTraced_fst type piece target frm dst board

theorem walk_cons (r c sr sc : Int) (m : Nat) :
    (⟨r, c⟩ : Square) :: (List.range m).map
        (fun k : Nat => (⟨r + sr + k * sr, c + sc + k * sc⟩ : Square)) =
      (List.range (m + 1)).map (fun k : Nat => (⟨r + k * sr, c + k * sc⟩ : Square)) := by
  rw [List.range_succ_eq_map, List.map_cons, List.map_map]
  congr 1
  · simp
  · apply List.map_congr_left
    intro k _
    simp only [Function.comp, Square.mk.injEq, Nat.succ_eq_add_one]
    constructor <;> (push_cast; ring)

/-- The traced loop of `clearPath` on a walk of `n` cells inside the grid that
ends on `dst`: it reads all `n` cells when they are empty, and the cells up to
the first occupied one otherwise. -/
theorem clearPathLoopTraced_spec (board : Board) (sr sc : Int) (dst : Square)
    (hs : sr ≠ 0 ∨ sc ≠ 0) (n : Nat) :
    ∀ (fuel : Nat) (r c : Int), n < fuel →
      dst.row = r + n * sr → dst.col = c + n * sc →
      (∀ k : Nat, k < n → (0 ≤ r + k * sr ∧ r + k * sr < 8) ∧ (0 ≤ c + k * sc ∧ c + k * sc < 8)) →
      (clearPathLoopTraced board sr sc dst fuel r c =
          (.ok true, (List.range n).map (fun k : Nat => (⟨r + k * sr, c + k * sc⟩ : Square))) ∧
        ∀ k : Nat, k < n → getCell board (r + k * sr) (c + k * sc) = .ok none) ∨
      (∃ k : Nat, k < n ∧ (∃ p, getCell board (r + k * sr) (c + k * sc) = .ok (some p)) ∧
        (∀ j : Nat, j < k → getCell board (r + j * sr) (c + j * sc) = .ok none) ∧
        clearPathLoopTraced board sr sc dst fuel r c =
          (.ok false,
            (List.range (k + 1)).map (fun k : Nat => (⟨r + k * sr, c + k * sc⟩ : Square)))) := by
  induction n with
  | zero =>
    intro fuel r c hf hr hc _
    left
    obtain ⟨f, rfl⟩ : ∃ f, fuel = f + 1 := ⟨fuel - 1, by omega⟩
    refine ⟨?_, fun k hk => absurd hk (Nat.not_lt_zero k)⟩
    have h1 : r = dst.row := by simp [hr]
    have h2 : c = dst.col := by simp [hc]
    simp [clearPathLoopTraced, h1, h2]
  | succ n ih =>
    intro fuel r c hf hr hc hin
    obtain ⟨f, rfl⟩ : ∃ f, fuel = f + 1 := ⟨fuel - 1, by omega⟩
    have hcond : r ≠ dst.row ∨ c ≠ dst.col := by
      rcases hs with h | h
      · left
        intro he
        rw [hr] at he
        have : ((n + 1 : Nat) : Int) * sr = 0 := by linarith
        rcases mul_eq_zero.mp this with h0 | h0
        · omega
        · exact h h0
      · right
        intro he
        rw [hc] at he
        have : ((n + 1 : Nat) : Int) * sc = 0 := by linarith
        rcases mul_eq_zero.mp this with h0 | h0
        · omega
        · exact h h0
    have h0 := hin 0 (Nat.succ_pos n)
    simp only [Nat.cast_zero, zero_mul, add_zero] at h0
    obtain ⟨v, hv⟩ := getCell_ok_of_inBounds board h0.1 h0.2
    have e1 : ∀ k : Nat, r + ((k + 1 : Nat) : Int) * sr = r + sr + k * sr := by
      intro k; push_cast; ring
    have e2 : ∀ k : Nat, c + ((k + 1 : Nat) : Int) * sc = c + sc + k * sc := by
      intro k; push_cast; ring
    cases v with
    | some p =>
      right
      refine ⟨0, Nat.succ_pos n, ⟨p, by simpa using hv⟩, fun j hj => absurd hj (Nat.not_lt_zero j),
        ?_⟩
      simp [clearPathLoopTraced, hcond, hv, List.range_succ_eq_map]
    | none =>
      have hr2 : dst.row = (r + sr) + n * sr := by rw [hr]; push_cast; ring
      have hc2 : dst.col = (c + sc) + n * sc := by rw [hc]; push_cast; ring
      have hin2 : ∀ k : Nat, k < n → (0 ≤ (r + sr) + k * sr ∧ (r + sr) + k * sr < 8) ∧
          (0 ≤ (c + sc) + k * sc ∧ (c + sc) + k * sc < 8) := by
        intro k hk
        have := hin (k + 1) (by omega)
        rw [e1, e2] at this
        exact this
      have hstep : clearPathLoopTraced board sr sc dst (f + 1) r c =
          ((clearPathLoopTraced board sr sc dst f (r + sr) (c + sc)).1,
            ⟨r, c⟩ :: (clearPathLoopTraced board sr sc dst f (r + sr) (c + sc)).2) := by
        simp [clearPathLoopTraced, hcond, hv]
      rcases ih f (r + sr) (c + sc) (by omega) hr2 hc2 hin2 with
        ⟨h1, h2⟩ | ⟨k, hk, ⟨p, hp⟩, hj, h1⟩
      · left
        refine ⟨by simp only [hstep, h1, ← walk_cons], ?_⟩
        intro k hk
        cases k with
        | zero => simpa using hv
        | succ k =>
          rw [e1, e2]
          exact h2 k (by omega)
      · right
        refine ⟨k + 1, by omega, ⟨p, by rw [e1, e2]; exact hp⟩, ?_,
          by simp only [hstep, h1, ← walk_cons]⟩
        intro j hjk
        cases j with
        | zero => simpa using hv
        | succ j =>
          rw [e1, e2]
          exact hj j (by omega)

/-- On aligned squares of the grid the traced `clearPath` reads the squares
strictly between, in walk order: all of them when they are empty (result
`true`), and those up to the first occupied one otherwise (result `false`). -/
theorem clearPathTraced_spec (board : Board) {frm dst : Square} (hf : frm.InBounds)
    (hd : dst.InBounds) (ha : Aligned frm dst) :
    (clearPathTraced frm dst board = (.ok true, betweenSquares frm dst) ∧
      ∀ k : Nat, 0 < k → k < steps frm dst →
        getCell board (pathSquare frm dst k).row (pathSquare frm dst k).col = .ok none) ∨
    (∃ k : Nat, 0 < k ∧ k < steps frm dst ∧
      (∃ p, getCell board (pathSquare frm dst k).row (pathSquare frm dst k).col
        = .ok (some p)) ∧
      (∀ j : Nat, 0 < j → j < k →
        getCell board (pathSquare frm dst j).row (pathSquare frm dst j).col = .ok none) ∧
      clearPathTraced frm dst board = (.ok false, (betweenSquares frm dst).take k)) := by
  rcases Nat.eq_zero_or_pos (steps frm dst) with h0 | hpos
  · left
    have hst := pathSquare_steps hf hd ha
    rw [h0] at hst
    simp only [pathSquare, Nat.cast_zero, zero_mul, add_zero] at hst
    have hr : Math.sign (dst.row - frm.row) = 0 := by
      have : dst.row = frm.row := by rw [← hst]
      simp [this, Math.sign]
    have hc : Math.sign (dst.col - frm.col) = 0 := by
      have : dst.col = frm.col := by rw [← hst]
      simp [this, Math.sign]
    refine ⟨?_, fun k hk hk2 => by omega⟩
    have e1 : frm.row = dst.row := by rw [← hst]
    have e2 : frm.col = dst.col := by rw [← hst]
    obtain ⟨f, hfu⟩ : ∃ f, clearPathFuel frm dst = f + 1 :=
      ⟨clearPathFuel frm dst - 1, by unfold clearPathFuel; omega⟩
    have hb : betweenSquares frm dst = [] := by simp [betweenSquares, h0]
    rw [hb]
    show clearPathLoopTraced board (Math.sign (dst.row - frm.row))
      (Math.sign (dst.col - frm.col)) dst
      (clearPathFuel frm dst) (frm.row + Math.sign (dst.row - frm.row))
      (frm.col + Math.sign (dst.col - frm.col)) = (.ok true, [])
    rw [hr, hc, add_zero, add_zero, hfu, e1, e2]
    simp [clearPathLoopTraced]
  · obtain ⟨n, hn⟩ : ∃ n, steps frm dst = n + 1 := ⟨steps frm dst - 1, by omega⟩
    have hst := pathSquare_steps hf hd ha
    have hfuel : n < clearPathFuel frm dst := by
      unfold clearPathFuel; unfold steps at hn; omega
    have hrow : dst.row = frm.row + Math.sign (dst.row - frm.row)
        + n * Math.sign (dst.row - frm.row) := by
      have : (pathSquare frm dst (steps frm dst)).row = dst.row := by rw [hst]
      rw [hn] at this
      simp only [pathSquare] at this
      push_cast at this
      linarith
    have hcol : dst.col = frm.col + Math.sign (dst.col - frm.col)
        + n * Math.sign (dst.col - frm.col) := by
      have : (pathSquare frm dst (steps frm dst)).col = dst.col := by rw [hst]
      rw [hn] at this
      simp only [pathSquare] at this
      push_cast at this
      linarith
    have shift : ∀ k : Nat,
        (⟨frm.row + Math.sign (dst.row - frm.row) + k * Math.sign (dst.row - frm.row),
          frm.col + Math.sign (dst.col - frm.col) + k * Math.sign (dst.col - frm.col)⟩ : Square)
          = pathSquare frm dst (k + 1) := by
      intro k
      simp only [pathSquare, Square.mk.injEq]
      constructor <;> (push_cast; ring)
    have hin : ∀ k : Nat, k < n →
        (0 ≤ frm.row + Math.sign (dst.row - frm.row) + k * Math.sign (dst.row - frm.row) ∧
          frm.row + Math.sign (dst.row - frm.row) + k * Math.sign (dst.row - frm.row) < 8) ∧
        (0 ≤ frm.col + Math.sign (dst.col - frm.col) + k * Math.sign (dst.col - frm.col) ∧
          frm.col + Math.sign (dst.col - frm.col) + k * Math.sign (dst.col - frm.col) < 8) := by
      intro k hk
      have hb := pathSquare_inBounds hf hd ha (k := k + 1) (by omega)
      rw [← shift k] at hb
      exact ⟨⟨hb.1, hb.2.1⟩, ⟨hb.2.2.1, hb.2.2.2⟩⟩
    have key := clearPathLoopTraced_spec board _ _ dst (sign_ne_zero_of_steps hpos) n
      (clearPathFuel frm dst) _ _ hfuel hrow hcol hin
    have cell : ∀ k : Nat, getCell board
        (frm.row + Math.sign (dst.row - frm.row) + k * Math.sign (dst.row - frm.row))
        (frm.col + Math.sign (dst.col - frm.col) + k * Math.sign (dst.col - frm.col))
        = getCell board (pathSquare frm dst (k + 1)).row (pathSquare frm dst (k + 1)).col := by
      intro k; rw [← shift k]
    have hlist : ∀ m : Nat, (List.range m).map (fun k : Nat =>
        (⟨frm.row + Math.sign (dst.row - frm.row) + k * Math.sign (dst.row - frm.row),
          frm.col + Math.sign (dst.col - frm.col) + k * Math.sign (dst.col - frm.col)⟩ : Square))
        = (List.range m).map (fun i => pathSquare frm dst (i + 1)) := by
      intro m
      apply List.map_congr_left
      intro k _
      exact shift k
    have hbetween : betweenSquares frm dst =
        (List.range n).map (fun i => pathSquare frm dst (i + 1)) := by
      simp [betweenSquares, hn]
    rcases key with ⟨h1, h2⟩ | ⟨k, hk, ⟨p, hp⟩, hj, h1⟩
    · left
      refine ⟨?_, fun k hk hk2 => ?_⟩
      · rw [hbetween, ← hlist n]
        exact h1
      · obtain ⟨j, rfl⟩ : ∃ j, k = j + 1 := ⟨k - 1, by omega⟩
        rw [← cell j]
        exact h2 j (by omega)
    · right
      refine ⟨k + 1, by omega, by omega, ⟨p, by rw [← cell k]; exact hp⟩, ?_, ?_⟩
      · intro j hj0 hjk
        obtain ⟨i, rfl⟩ : ∃ i, j = i + 1 := ⟨j - 1, by omega⟩
        rw [← cell i]
        exact hj i (by omega)
      · have ht : (betweenSquares frm dst).take (k + 1) =
            (List.range (k + 1)).map (fun i => pathSquare frm dst (i + 1)) := by
          rw [hbetween, ← List.map_take, List.take_range]
          congr 2
          omega
        rw [ht, ← hlist (k + 1)]
        exact h1

theorem mem_betweenSquares (frm dst x : Square) :
    x ∈ betweenSquares frm dst ↔
      ∃ k : Nat, 0 < k ∧ k < steps frm dst ∧ x = pathSquare frm dst k := by
  simp only [betweenSquares, List.mem_map, List.mem_range]
  constructor
  · rintro ⟨i, hi, rfl⟩
    exact ⟨i + 1, by omega, by omega, rfl⟩
  · rintro ⟨k, hk0, hk, rfl⟩
    exact ⟨k - 1, by omega, by rw [Nat.sub_add_cancel hk0]⟩

theorem length_betweenSquares (frm dst : Square) :
    (betweenSquares frm dst).length =
      max (dst.row - frm.row).natAbs (dst.col - frm.col).natAbs - 1 := by
  simp [betweenSquares, steps]

theorem pathSquare_inj {frm dst : Square} (h : 0 < steps frm dst) {j k : Nat}
    (e : pathSquare frm dst j = pathSquare frm dst k) : j = k := by
  have hs := sign_ne_zero_of_steps h
  simp only [pathSquare, Square.mk.injEq] at e
  revert hs e
  unfold Math.sign
  split_ifs <;> intro hs e <;> omega

theorem pathSquare_zero (frm dst : Square) : pathSquare frm dst 0 = frm := by
  simp [pathSquare]

theorem pathSquare_ne {frm dst : Square} (hf : frm.InBounds) (hd : dst.InBounds)
    (ha : Aligned frm dst) {k : Nat} (hk0 : 0 < k) (hk : k < steps frm dst) :
    pathSquare frm dst k ≠ frm ∧ pathSquare frm dst k ≠ dst := by
  have hpos : 0 < steps frm dst := by omega
  constructor
  · intro e
    have e2 : pathSquare frm dst k = pathSquare frm dst 0 := by
      rw [pathSquare_zero]; exact e
    have := pathSquare_inj hpos e2
    omega
  · intro e
    have e2 : pathSquare frm dst k = pathSquare frm dst (steps frm dst) := by
      rw [pathSquare_steps hf hd ha]; exact e
    have := pathSquare_inj hpos e2
    omega

/-- Every cell the traced `clearPath` reads on aligned squares of the grid is a
square strictly between them. -/
theorem clearPathTraced_reads (board : Board) {frm dst : Square} (hf : frm.InBounds)
    (hd : dst.InBounds) (ha : Aligned frm dst) :
    ∀ x ∈ (clearPathTraced frm dst board).2, x ∈ betweenSquares frm dst := by
  intro x hx
  rcases clearPathTraced_spec board hf hd ha with ⟨h, _⟩ | ⟨k, _, _, _, _, h⟩
  · rw [h] at hx
    exact hx
  · rw [h] at hx
    exact List.mem_of_mem_take hx

/-- The result and the reads of `clearPath` on aligned squares of the grid are
the same on every board that agrees with this one off `frm` and `dst`. -/
theorem clearPathTraced_congr (board board2 : Board) {frm dst : Square} (hf : frm.InBounds)
    (hd : dst.InBounds) (ha : Aligned frm dst)
    (hagree : ∀ x : Square, x ≠ frm → x ≠ dst →
      getCell board2 x.row x.col = getCell board x.row x.col) :
    clearPathTraced frm dst board2 = clearPathTraced frm dst board := by
  have hcell : ∀ k : Nat, 0 < k → k < steps frm dst →
      getCell board2 (pathSquare frm dst k).row (pathSquare frm dst k).col =
        getCell board (pathSquare frm dst k).row (pathSquare frm dst k).col := by
    intro k hk0 hk
    obtain ⟨h1, h2⟩ := pathSquare_ne hf hd ha hk0 hk
    exact hagree _ h1 h2
  rcases clearPathTraced_spec board hf hd ha with ⟨h, he⟩ | ⟨k, hk0, hk, ⟨p, hp⟩, hj, h⟩ <;>
    rcases clearPathTraced_spec board2 hf hd ha with
      ⟨h', he'⟩ | ⟨k', hk0', hk', ⟨p', hp'⟩, hj', h'⟩
  · rw [h, h']
  · have := he k' hk0' hk'
    rw [← hcell k' hk0' hk', hp'] at this
    simp at this
  · have := he' k hk0 hk
    rw [hcell k hk0 hk, hp] at this
    simp at this
  · have hkk : k = k' := by
      rcases Nat.lt_trichotomy k k' with hlt | heq | hgt
      · have := hj' k hk0 hlt
        rw [hcell k hk0 hk, hp] at this
        simp at this
      · exact heq
      · have := hj k' hk0' hgt
        rw [← hcell k' hk0' hk', hp'] at this
        simp at this
    subst hkk
    rw [h, h']

theorem pawnMoveTraced_reads (piece : Piece) (target : Option Piece) (frm dst : Square)
    (board : Board) :
    ∀ x ∈ (pawnMoveTraced piece target frm dst board).2,
      (frm.row = 1 ∧ x = ⟨2, frm.col⟩) ∨ (frm.row = 6 ∧ x = ⟨5, frm.col⟩) := by
  intro x hx
  by_cases h : frm.row = (if piece.color = .w then 1 else 6) ∧ frm.col = dst.col ∧
      dst.row = frm.row + 2 * (if piece.color = .w then 1 else -1) ∧ target.isNone = true
  · have hx2 : x = ⟨frm.row + (if piece.color = .w then 1 else -1), frm.col⟩ := by
      simp only [pawnMoveTraced, if_pos h] at hx
      cases hg : getCell board (frm.row + (if piece.color = .w then 1 else -1)) frm.col <;>
        (rw [hg] at hx; simpa using hx)
    have h1 := h.1
    by_cases hw : piece.color = .w
    · rw [if_pos hw] at h1 hx2
      left
      refine ⟨h1, ?_⟩
      rw [hx2, h1]
      rfl
    · rw [if_neg hw] at h1 hx2
      right
      refine ⟨h1, ?_⟩
      rw [hx2, h1]
      rfl
  · simp only [pawnMoveTraced, if_neg h] at hx
    simp at hx

/-- The reads of the traced `switch` on squares of the grid: for a rook, bishop
or queen only squares strictly between aligned `frm` and `dst`; for a pawn only
the square in front of its home row; none for a knight or a king. -/
theorem pieceSwitchTraced_reads (type : Kind) (piece : Piece) (target : Option Piece)
    {frm dst : Square} (hf : frm.InBounds) (hd : dst.InBounds) (board : Board) :
    ∀ x ∈ (pieceSwitchTraced type piece target frm dst board).2,
      ((type = .r ∨ type = .b ∨ type = .q) ∧ Aligned frm dst ∧
        ∃ k : Nat, 0 < k ∧ k < steps frm dst ∧ x = pathSquare frm dst k) ∨
      (type = .p ∧ ((frm.row = 1 ∧ x = ⟨2, frm.col⟩) ∨ (frm.row = 6 ∧ x = ⟨5, frm.col⟩))) := by
  intro x hx
  have cp : Aligned frm dst → x ∈ (clearPathTraced frm dst board).2 →
      Aligned frm dst ∧ ∃ k : Nat, 0 < k ∧ k < steps frm dst ∧ x = pathSquare frm dst k := by
    intro ha hx
    exact ⟨ha, (mem_betweenSquares frm dst x).mp (clearPathTraced_reads board hf hd ha x hx)⟩
  cases type with
  | p => exact Or.inr ⟨rfl, pawnMoveTraced_reads piece target frm dst board x hx⟩
  | r =>
    left
    simp only [pieceSwitchTraced] at hx
    split_ifs at hx with hs
    · exact ⟨Or.inl rfl, cp (by unfold Aligned; tauto) hx⟩
    · simp at hx
  | b =>
    left
    simp only [pieceSwitchTraced] at hx
    split_ifs at hx with hs
    · exact ⟨Or.inr (Or.inl rfl), cp (by unfold Aligned; tauto) hx⟩
    · simp at hx
  | q =>
    left
    simp only [pieceSwitchTraced] at hx
    split_ifs at hx with hs
    · exact ⟨Or.inr (Or.inr rfl), cp (by unfold Aligned; tauto) hx⟩
    · simp at hx
  | n => simp [pieceSwitchTraced] at hx
  | k => simp [pieceSwitchTraced] at hx

theorem isValidPieceMoveTraced_reads (turn : Side) (type : Kind) {frm dst : Square}
    (hf : frm.InBounds) (hd : dst.InBounds) (board : Board) (ignoreTurn : Bool) :
    ∀ x ∈ (isValidPieceMoveTraced turn type frm dst board ignoreTurn).2,
      x = frm ∨ x = dst ∨
      ((type = .r ∨ type = .b ∨ type = .q) ∧ Aligned frm dst ∧
        ∃ k : Nat, 0 < k ∧ k < steps frm dst ∧ x = pathSquare frm dst k) ∨
      (type = .p ∧ ((frm.row = 1 ∧ x = ⟨2, frm.col⟩) ∨ (frm.row = 6 ∧ x = ⟨5, frm.col⟩))) := by
  intro x hx
  unfold isValidPieceMoveTraced at hx
  cases h1 : getCell board frm.row frm.col with
  | error e =>
    rw [h1] at hx
    simp only [List.mem_singleton] at hx
    exact Or.inl hx
  | ok pieceOpt =>
    rw [h1] at hx
    have two : ∀ {P : Prop}, x ∈ [frm, dst] → x = frm ∨ x = dst ∨ P := by
      intro P h
      simp only [List.mem_cons, List.mem_singleton, List.not_mem_nil, or_false] at h
      rcases h with h | h
      · exact Or.inl h
      · exact Or.inr (Or.inl h)
    cases h2 : getCell board dst.row dst.col with
    | error e =>
      rw [h2] at hx
      exact two hx
    | ok target =>
      rw [h2] at hx
      cases pieceOpt with
      | none => exact two hx
      | some piece =>
        simp only [] at hx
        split_ifs at hx
        · exact two hx
        · exact two hx
        · exact two hx
        · simp only [List.mem_cons] at hx
          rcases hx with h | h | h
          · exact Or.inl h
          · exact Or.inr (Or.inl h)
          · exact Or.inr (Or.inr (pieceSwitchTraced_reads type piece target hf hd board x h))

theorem getCell_set_ne (board : Board) (r c : Int) (v : Option Piece) (x : Square)
    (h : x ≠ ⟨r, c⟩) : getCell (board.set r c v) x.row x.col = getCell board x.row x.col := by
  obtain ⟨xr, xc⟩ := x
  have hne : ¬ (xr = r ∧ xc = c) := by
    rintro ⟨rfl, rfl⟩
    exact h rfl
  unfold getCell
  by_cases hr : 0 ≤ xr ∧ xr < 8
  · by_cases hc : 0 ≤ xc ∧ xc < 8
    · simp only [dif_pos hr, dif_pos hc, Board.set]
      have e1 : ((xr.toNat : Nat) : Int) = xr := Int.toNat_of_nonneg hr.1
      have e2 : ((xc.toNat : Nat) : Int) = xc := Int.toNat_of_nonneg hc.1
      simp only [e1, e2, if_neg hne]
    · simp only [dif_pos hr, dif_neg hc]
  · simp only [dif_neg hr]

/-! ## The claims -/

/-- C1. No mutation on rejection: when `move` on squares of the grid returns one
of the three `{ error }` values, the engine's board, square for square, and its
turn are the same after the call as before. -/
theorem C1_no_mutation_on_rejection (g : Game) (frm dst : Square) (hf : frm.InBounds)
    (hd : dst.InBounds) (e : MoveError) (h : (move g frm dst).1 = .ok (.error e)) :
    (move g frm dst).2.board = g.board ∧ (move g frm dst).2.turn = g.turn := by
  rcases move_spec g hf hd with ⟨_, hm⟩ | ⟨_, _, _, hm⟩ | ⟨_, _, _, _, hm⟩ |
    ⟨_, _, _, _, _, _, hm⟩
  · rw [hm]; exact ⟨rfl, rfl⟩
  · rw [hm]; exact ⟨rfl, rfl⟩
  · rw [hm]; exact ⟨rfl, rfl⟩
  · rw [hm] at h
    simp at h

/-- C1 at a rejected move: from the initial position, the white knight b1 to b3
is refused as invalid and the state is unchanged. -/
theorem C1_no_mutation_on_rejection_witness :
    (move Game.new ⟨0, 1⟩ ⟨2, 1⟩).1 = .ok (.error .invalidMove) ∧
      ((move Game.new ⟨0, 1⟩ ⟨2, 1⟩).2.board = Game.new.board ∧
        (move Game.new ⟨0, 1⟩ ⟨2, 1⟩).2.turn = Game.new.turn) :=
  ⟨rfl, C1_no_mutation_on_rejection Game.new ⟨0, 1⟩ ⟨2, 1⟩ (by decide) (by decide)
    .invalidMove rfl⟩

/-- C2. King invariant: in every state reachable from `new chess()` by calls of
`move` on squares of the grid, the board holds exactly one white king and
exactly one black king, and no accepted move lands on a square holding a
king. -/
theorem C2_king_invariant (g : Game) (h : Reachable g) :
    kingCount .white g.board = 1 ∧ kingCount .black g.board = 1 ∧
      ∀ frm dst : Square, frm.InBounds → dst.InBounds →
        ∀ s, (move g frm dst).1 = .ok (.ok s) →
          ∀ p, getCell g.board dst.row dst.col = .ok (some p) → p.type ≠ .k := by
  have hinv := reachable_inv g h
  refine ⟨kingCount_of_unique _ _ hinv.white, kingCount_of_unique _ _ hinv.black, ?_⟩
  intro frm dst hf hd s hs p hp hk
  rcases move_spec g hf hd with ⟨_, hm⟩ | ⟨_, _, _, hm⟩ | ⟨_, _, _, _, hm⟩ |
    ⟨piece, over, hcell, hv, _, _, _⟩
  · rw [hm] at hs; simp at hs
  · rw [hm] at hs; simp at hs
  · rw [hm] at hs; simp at hs
  · obtain ⟨fi, fj, rfl⟩ := inBounds_eq_sq hf
    obtain ⟨di, dj, rfl⟩ := inBounds_eq_sq hd
    rw [getCell_sq] at hcell hp
    simp only [Except.ok.injEq] at hcell hp
    have hw0 := valid_not_on_king g hinv piece (fi, fj) (di, dj) hcell hv
    have h1 := (hw0 .white).1
    have h2 := (hw0 .black).1
    simp only [hp, isKingOf, hk, Side.initial] at h1 h2
    cases hc : p.color <;> simp [hc] at h1 h2

/-- C2 at the state after 1. e2-e4 d7-d5, where the capture e4xd5 is accepted
and takes a pawn. -/
theorem C2_king_invariant_witness :
    Reachable afterE4D5 ∧
      kingCount .white afterE4D5.board = 1 ∧ kingCount .black afterE4D5.board = 1 ∧
      (move afterE4D5 ⟨3, 4⟩ ⟨4, 3⟩).1 =
        .ok (.ok ⟨trialBoard afterE4D5.board ⟨.p, .w⟩ ⟨3, 4⟩ ⟨4, 3⟩, .black, false, none⟩) ∧
      getCell afterE4D5.board 4 3 = .ok (some ⟨.p, .b⟩) ∧
      (⟨.p, .b⟩ : Piece).type ≠ .k :=
  have hr : Reachable afterE4D5 :=
    Reachable.step _ _ _ (Reachable.step _ _ _ Reachable.init (by decide) (by decide))
      (by decide) (by decide)
  have hm : (move afterE4D5 ⟨3, 4⟩ ⟨4, 3⟩).1 =
      .ok (.ok ⟨trialBoard afterE4D5.board ⟨.p, .w⟩ ⟨3, 4⟩ ⟨4, 3⟩, .black, false, none⟩) := rfl
  have hc : getCell afterE4D5.board 4 3 = .ok (some ⟨.p, .b⟩) := rfl
  ⟨hr, (C2_king_invariant afterE4D5 hr).1, (C2_king_invariant afterE4D5 hr).2.1, hm, hc,
    (C2_king_invariant afterE4D5 hr).2.2 ⟨3, 4⟩ ⟨4, 3⟩ (by decide) (by decide) _ hm _ hc⟩

/-- C3. No self-check: after an accepted `move` on squares of the grid the
colour that just moved is not in check on the resulting board; hence in every
state reachable from `new chess()` the side that is not to move is not in
check.  (`isInCheck` reads `this.turn` only through calls with `ignoreTurn`
set, so the statement holds whatever turn `t` the engine shows.) -/
theorem C3_no_self_check :
    (∀ (g : Game) (frm dst : Square), frm.InBounds → dst.InBounds →
      ∀ s, (move g frm dst).1 = .ok (.ok s) →
        s.board = (move g frm dst).2.board ∧ ∀ t, isInCheck t g.turn s.board = .ok false) ∧
    (∀ g : Game, Reachable g → ∀ t, isInCheck t g.turn.other g.board = .ok false) := by
  constructor
  · intro g frm dst hf hd s hs
    rcases move_spec g hf hd with ⟨_, hm⟩ | ⟨_, _, _, hm⟩ | ⟨_, _, _, _, hm⟩ |
      ⟨piece, over, _, _, hw, _, hm⟩
    · rw [hm] at hs; simp at hs
    · rw [hm] at hs; simp at hs
    · rw [hm] at hs; simp at hs
    · rw [hm] at hs ⊢
      simp only [Except.ok.injEq, MoveResult.ok.injEq] at hs
      subst hs
      exact ⟨rfl, fun t => by rw [isInCheck_turn_irrel t g.turn]; exact hw⟩
  · intro g hr t
    rw [isInCheck_turn_irrel t g.turn]
    exact (reachable_inv g hr).safe

/-- C3 at 1. e2-e4 from the initial position, and at the state it leads to. -/
theorem C3_no_self_check_witness :
    (move Game.new ⟨1, 4⟩ ⟨3, 4⟩).1 =
        .ok (.ok ⟨trialBoard initBoard ⟨.p, .w⟩ ⟨1, 4⟩ ⟨3, 4⟩, .black, false, none⟩) ∧
      (trialBoard initBoard ⟨.p, .w⟩ ⟨1, 4⟩ ⟨3, 4⟩ = (move Game.new ⟨1, 4⟩ ⟨3, 4⟩).2.board ∧
        ∀ t, isInCheck t .white (trialBoard initBoard ⟨.p, .w⟩ ⟨1, 4⟩ ⟨3, 4⟩) = .ok false) ∧
      Reachable afterE4 ∧ ∀ t, isInCheck t afterE4.turn.other afterE4.board = .ok false :=
  have hr : Reachable afterE4 := Reachable.step _ _ _ Reachable.init (by decide) (by decide)
  ⟨rfl, C3_no_self_check.1 Game.new ⟨1, 4⟩ ⟨3, 4⟩ (by decide) (by decide) _ rfl, hr,
    C3_no_self_check.2 afterE4 hr⟩

/-- C4. Rejection classification in order, for squares of the grid: `move`
returns a value (no fault); it is "No piece at source" iff the source cell is
empty; "Invalid move" iff the source holds a piece and the turn-respecting
`isValidPieceMove` is false; "You cannot move into check" iff the source holds
a piece, `isValidPieceMove` is true and the mover is in check on the board with
the piece moved; and it is accepted iff the source holds a piece,
`isValidPieceMove` is true and the mover is not in check on that board. -/
theorem C4_rejection_classification (g : Game) (frm dst : Square) (hf : frm.InBounds)
    (hd : dst.InBounds) :
    (∃ r, (move g frm dst).1 = .ok r) ∧
    ((move g frm dst).1 = .ok (.error .noPieceAtSource) ↔
      getCell g.board frm.row frm.col = .ok none) ∧
    ((move g frm dst).1 = .ok (.error .invalidMove) ↔
      ∃ piece, getCell g.board frm.row frm.col = .ok (some piece) ∧
        isValidPieceMove g.turn piece.type frm dst g.board false = .ok false) ∧
    ((move g frm dst).1 = .ok (.error .moveIntoCheck) ↔
      ∃ piece, getCell g.board frm.row frm.col = .ok (some piece) ∧
        isValidPieceMove g.turn piece.type frm dst g.board false = .ok true ∧
        isInCheck g.turn g.turn (trialBoard g.board piece frm dst) = .ok true) ∧
    ((∃ s, (move g frm dst).1 = .ok (.ok s)) ↔
      ∃ piece, getCell g.board frm.row frm.col = .ok (some piece) ∧
        isValidPieceMove g.turn piece.type frm dst g.board false = .ok true ∧
        isInCheck g.turn g.turn (trialBoard g.board piece frm dst) = .ok false) := by
  rcases move_spec g hf hd with ⟨hc, hm⟩ | ⟨piece, hc, hv, hm⟩ | ⟨piece, hc, hv, hw, hm⟩ |
    ⟨piece, over, hc, hv, hw, _, hm⟩
  · rw [hm]
    simp [hc]
  · rw [hm]
    simp [hc, hv]
  · rw [hm]
    simp [hc, hv, hw]
  · rw [hm]
    simp [hc, hv, hw]

/-- C4 at the knight move b1-b3 from the initial position, which is refused as
invalid. -/
theorem C4_rejection_classification_witness :
    (∃ r, (move Game.new ⟨0, 1⟩ ⟨2, 1⟩).1 = .ok r) ∧
    ((move Game.new ⟨0, 1⟩ ⟨2, 1⟩).1 = .ok (.error .noPieceAtSource) ↔
      getCell Game.new.board 0 1 = .ok none) ∧
    ((move Game.new ⟨0, 1⟩ ⟨2, 1⟩).1 = .ok (.error .invalidMove) ↔
      ∃ piece, getCell Game.new.board 0 1 = .ok (some piece) ∧
        isValidPieceMove Game.new.turn piece.type ⟨0, 1⟩ ⟨2, 1⟩ Game.new.board false
          = .ok false) ∧
    ((move Game.new ⟨0, 1⟩ ⟨2, 1⟩).1 = .ok (.error .moveIntoCheck) ↔
      ∃ piece, getCell Game.new.board 0 1 = .ok (some piece) ∧
        isValidPieceMove Game.new.turn piece.type ⟨0, 1⟩ ⟨2, 1⟩ Game.new.board false
          = .ok true ∧
        isInCheck Game.new.turn Game.new.turn (trialBoard Game.new.board piece ⟨0, 1⟩ ⟨2, 1⟩)
          = .ok true) ∧
    ((∃ s, (move Game.new ⟨0, 1⟩ ⟨2, 1⟩).1 = .ok (.ok s)) ↔
      ∃ piece, getCell Game.new.board 0 1 = .ok (some piece) ∧
        isValidPieceMove Game.new.turn piece.type ⟨0, 1⟩ ⟨2, 1⟩ Game.new.board false
          = .ok true ∧
        isInCheck Game.new.turn Game.new.turn (trialBoard Game.new.board piece ⟨0, 1⟩ ⟨2, 1⟩)
          = .ok false) :=
  C4_rejection_classification Game.new ⟨0, 1⟩ ⟨2, 1⟩ (by decide) (by decide)

/-- C5, at the failing input: from the initial position, `move` of the pawn on
(1,0) to the square (8,0) does not return "Invalid move"; the read of
`board[8][0]` throws a `TypeError` before the bounds test is reached.  The
state is left as it was. -/
theorem C5_out_of_bounds_row_throws :
    (move Game.new ⟨1, 0⟩ ⟨8, 0⟩).1 = .error .typeError ∧
      (move Game.new ⟨1, 0⟩ ⟨8, 0⟩).1 ≠ .ok (.error .invalidMove) ∧
      (move Game.new ⟨1, 0⟩ ⟨8, 0⟩).2.board = Game.new.board ∧
      (move Game.new ⟨1, 0⟩ ⟨8, 0⟩).2.turn = Game.new.turn :=
  ⟨rfl, by rw [show (move Game.new ⟨1, 0⟩ ⟨8, 0⟩).1 = .error .typeError from rfl]; simp,
    rfl, rfl⟩

set_option maxRecDepth 100000 in
/-- C6. Fool's mate: from `new chess()` the calls f2-f3, e7-e5, g2-g4, Qd8-h4
are all accepted; the first three return `gameOver = false`, `winner = null`,
and the fourth returns `turn = "white"`, `gameOver = true`,
`winner = "black"`. -/
theorem C6_fools_mate :
    outcome (move Game.new ⟨1, 5⟩ ⟨2, 5⟩).1 = some (.black, false, none) ∧
    outcome (move (move Game.new ⟨1, 5⟩ ⟨2, 5⟩).2 ⟨6, 4⟩ ⟨4, 4⟩).1
      = some (.white, false, none) ∧
    outcome (move (move (move Game.new ⟨1, 5⟩ ⟨2, 5⟩).2 ⟨6, 4⟩ ⟨4, 4⟩).2 ⟨1, 6⟩ ⟨3, 6⟩).1
      = some (.black, false, none) ∧
    outcome (move (move (move (move Game.new ⟨1, 5⟩ ⟨2, 5⟩).2 ⟨6, 4⟩ ⟨4, 4⟩).2
      ⟨1, 6⟩ ⟨3, 6⟩).2 ⟨7, 3⟩ ⟨3, 7⟩).1 = some (.white, true, some .black) := by
  decide!

/-- C7. Initial position: `new chess()` has white to move; row 0 holds the
white pieces r, n, b, q, k, b, n, r at columns 0..7 and row 7 the black pieces
of the same kinds in the same order; every square of row 1 is a white pawn and
every square of row 6 a black pawn; every square of rows 2..5 is empty. -/
theorem C7_initial_position :
    Game.new.turn = .white ∧
    idx8.map (fun c => Game.new.board 0 c) =
      [some ⟨.r, .w⟩, some ⟨.n, .w⟩, some ⟨.b, .w⟩, some ⟨.q, .w⟩,
       some ⟨.k, .w⟩, some ⟨.b, .w⟩, some ⟨.n, .w⟩, some ⟨.r, .w⟩] ∧
    idx8.map (fun c => Game.new.board 7 c) =
      [some ⟨.r, .b⟩, some ⟨.n, .b⟩, some ⟨.b, .b⟩, some ⟨.q, .b⟩,
       some ⟨.k, .b⟩, some ⟨.b, .b⟩, some ⟨.n, .b⟩, some ⟨.r, .b⟩] ∧
    (∀ c : Fin 8, Game.new.board 1 c = some ⟨.p, .w⟩) ∧
    (∀ c : Fin 8, Game.new.board 6 c = some ⟨.p, .b⟩) ∧
    (∀ c : Fin 8, Game.new.board 2 c = none ∧ Game.new.board 3 c = none ∧
      Game.new.board 4 c = none ∧ Game.new.board 5 c = none) := by
  decide!

/-- C8. Turn alternation, for squares of the grid: when `move` is accepted
with `gameOver = false`, the returned turn and the engine's turn after the call
are the colour opposite to the turn before the call; and the engine's turn
differs after a call only when the call was accepted. -/
theorem C8_turn_alternation (g : Game) (frm dst : Square) (hf : frm.InBounds)
    (hd : dst.InBounds) :
    (∀ s, (move g frm dst).1 = .ok (.ok s) → s.gameOver = false →
      s.turn = g.turn.other ∧ (move g frm dst).2.turn = g.turn.other ∧
        g.turn.other ≠ g.turn) ∧
    ((move g frm dst).2.turn ≠ g.turn → ∃ s, (move g frm dst).1 = .ok (.ok s)) := by
  have hne : g.turn.other ≠ g.turn := by cases g.turn <;> decide
  rcases move_spec g hf hd with ⟨_, hm⟩ | ⟨_, _, _, hm⟩ | ⟨_, _, _, _, hm⟩ |
    ⟨piece, over, _, _, _, _, hm⟩
  · rw [hm]; simp
  · rw [hm]; simp
  · rw [hm]; simp
  · rw [hm]
    refine ⟨?_, fun _ => ⟨_, rfl⟩⟩
    intro s hs _
    simp only [Except.ok.injEq, MoveResult.ok.injEq] at hs
    subst hs
    exact ⟨rfl, rfl, hne⟩

/-- C8 at 1. e2-e4 from the initial position. -/
theorem C8_turn_alternation_witness :
    (move Game.new ⟨1, 4⟩ ⟨3, 4⟩).1 =
        .ok (.ok ⟨trialBoard initBoard ⟨.p, .w⟩ ⟨1, 4⟩ ⟨3, 4⟩, .black, false, none⟩) ∧
      (Side.black = Game.new.turn.other ∧
        (move Game.new ⟨1, 4⟩ ⟨3, 4⟩).2.turn = Game.new.turn.other ∧
        Game.new.turn.other ≠ Game.new.turn) ∧
      (move Game.new ⟨1, 4⟩ ⟨3, 4⟩).2.turn ≠ Game.new.turn ∧
      ∃ s, (move Game.new ⟨1, 4⟩ ⟨3, 4⟩).1 = .ok (.ok s) :=
  have hne : (move Game.new ⟨1, 4⟩ ⟨3, 4⟩).2.turn ≠ Game.new.turn := by decide
  ⟨rfl,
    (C8_turn_alternation Game.new ⟨1, 4⟩ ⟨3, 4⟩ (by decide) (by decide)).1 _ rfl rfl,
    hne,
    (C8_turn_alternation Game.new ⟨1, 4⟩ ⟨3, 4⟩ (by decide) (by decide)).2 hne⟩

/-- C9. Pawn legality is exactly the three listed cases.  On squares of the
grid, with a pawn on `frm` that passes the ownership test, direction +1 for
white and -1 for black, home row 1 for white and 6 for black,
`isValidPieceMove("p", ...)` returns a value, and it is `true` iff (a) `dst` is
one row forward in the same column and empty, or (b) `frm` is on the home row,
`dst` is two rows forward in the same column and both `dst` and the square in
between are empty, or (c) `dst` is one row forward, one column aside, and holds
a piece of the other colour.  In particular `move` of a pawn e2-e4 with e3
occupied returns "Invalid move". -/
theorem C9_pawn_legality :
    (∀ (board : Board) (turn : Side) (ignoreTurn : Bool) (frm dst : Square) (piece : Piece),
      frm.InBounds → dst.InBounds →
      getCell board frm.row frm.col = .ok (some piece) → piece.type = .p →
      (ignoreTurn = true ∨ piece.color = turn.initial) →
      (∃ v, isValidPieceMove turn .p frm dst board ignoreTurn = .ok v) ∧
      (isValidPieceMove turn .p frm dst board ignoreTurn = .ok true ↔
        (dst.row = frm.row + (if piece.color = .w then 1 else -1) ∧ dst.col = frm.col ∧
          getCell board dst.row dst.col = .ok none) ∨
        (frm.row = (if piece.color = .w then 1 else 6) ∧
          dst.row = frm.row + 2 * (if piece.color = .w then 1 else -1) ∧
          dst.col = frm.col ∧ getCell board dst.row dst.col = .ok none ∧
          getCell board (frm.row + (if piece.color = .w then 1 else -1)) frm.col
            = .ok none) ∨
        (dst.row = frm.row + (if piece.color = .w then 1 else -1) ∧
          (dst.col - frm.col = 1 ∨ dst.col - frm.col = -1) ∧
          ∃ t, getCell board dst.row dst.col = .ok (some t) ∧ t.color ≠ piece.color))) ∧
    (∀ (g : Game) (piece blocker : Piece),
      getCell g.board 1 4 = .ok (some piece) → piece.type = .p →
      getCell g.board 2 4 = .ok (some blocker) →
      (move g ⟨1, 4⟩ ⟨3, 4⟩).1 = .ok (.error .invalidMove)) := by
  constructor
  · intro board turn ignoreTurn frm dst piece hf hd hcell _ hown
    refine ⟨isValidPieceMove_total turn .p hf hd board ignoreTurn, ?_⟩
    obtain ⟨target, h2⟩ := getCell_ok_of_inBounds board ⟨hd.1, hd.2.1⟩ ⟨hd.2.2.1, hd.2.2.2⟩
    rw [isValidPieceMove_eq turn .p frm dst board ignoreTurn piece target hcell h2, h2]
    have c1 : ¬ (!ignoreTurn && decide (piece.color ≠ turn.initial)) = true := by
      rcases hown with h | h <;> simp [h]
    have c2 : ¬ (!isInBounds dst.row dst.col) = true := by
      simp [isInBounds_of_inBounds hd]
    rw [if_neg c1, if_neg c2]
    by_cases c3 : sameColor target piece = true
    · rw [if_pos c3]
      cases target with
      | none => simp [sameColor] at c3
      | some t =>
        have : t.color = piece.color := by simpa [sameColor] using c3
        simp [this]
    · rw [if_neg c3]
      show pawnMove piece target frm dst board = .ok true ↔ _
      rw [pawnMove_true_iff piece target dst hf board]
      cases target with
      | none => simp
      | some t =>
        have : t.color ≠ piece.color := by simpa [sameColor] using c3
        simp [this]
  · intro g piece blocker hcell hty hblock
    have hf : (Square.mk 1 4).InBounds := by decide
    have hd : (Square.mk 3 4).InBounds := by decide
    have hnot : ∀ p, getCell g.board 1 4 = .ok (some p) →
        isValidPieceMove g.turn p.type ⟨1, 4⟩ ⟨3, 4⟩ g.board false ≠ .ok true := by
      intro p hp hv
      obtain ⟨q, target, h1, _, _, _, _, h6⟩ := isValidPieceMove_true _ _ _ _ _ _ hv
      have hq : q = piece := by
        have h1 : getCell g.board 1 4 = .ok (some q) := h1
        rw [hcell] at h1
        simpa using h1.symm
      have hpq : p = piece := by
        rw [hcell] at hp
        simpa using hp.symm
      subst hq hpq
      rw [hty] at h6
      have h6 : pawnMove p target ⟨1, 4⟩ ⟨3, 4⟩ g.board = .ok true := h6
      rw [pawnMove_true_iff p target ⟨3, 4⟩ hf g.board] at h6
      rcases h6 with ⟨h, _⟩ | ⟨ha, _, _, _, hmid⟩ | ⟨_, h, _⟩
      · simp only [] at h
        split_ifs at h <;> omega
      · simp only [] at ha hmid
        split_ifs at ha hmid with hw
        · have hmid : getCell g.board 2 4 = .ok none := hmid
          rw [hblock] at hmid
          simp at hmid
        · omega
      · simp only [] at h
        omega
    rcases move_spec g hf hd with ⟨hc, _⟩ | ⟨_, _, _, hm⟩ | ⟨p, hc, hv, _⟩ | ⟨p, _, hc, hv, _⟩
    · have hc : getCell g.board 1 4 = .ok none := hc
      rw [hcell] at hc
      simp at hc
    · rw [hm]
    · exact absurd hv (hnot p hc)
    · exact absurd hv (hnot p hc)

/-- C9 at the initial position, where the iff makes e2-e4 valid (case b), and at
a position with e3 occupied, where `move` refuses e2-e4. -/
theorem C9_pawn_legality_witness :
    isValidPieceMove .white .p ⟨1, 4⟩ ⟨3, 4⟩ initBoard false = .ok true ∧
      (move blockedE3 ⟨1, 4⟩ ⟨3, 4⟩).1 = .ok (.error .invalidMove) :=
  ⟨(C9_pawn_legality.1 initBoard .white false ⟨1, 4⟩ ⟨3, 4⟩ ⟨.p, .w⟩ (by decide) (by decide)
      rfl rfl (Or.inr rfl)).2.mpr (Or.inr (Or.inl ⟨rfl, rfl, rfl, rfl, rfl⟩)),
    C9_pawn_legality.2 blockedE3 ⟨.p, .w⟩ ⟨.n, .w⟩ rfl rfl rfl⟩

/-- C10. Sliding piece blocked path: on squares of the grid, with a rook,
bishop or queen of the side to move on `frm` and `dst` on a common row, column
or diagonal with `frm`, if a square strictly between them (`k` unit steps from
`frm`, `0 < k < max(|dr|,|dc|)`) is occupied, then `move` returns
"Invalid move", whatever `dst` holds, and the state is unchanged. -/
theorem C10_sliding_blocked_path (g : Game) (frm dst : Square) (piece blocker : Piece)
    (k : Nat) (hf : frm.InBounds) (hd : dst.InBounds)
    (hcell : getCell g.board frm.row frm.col = .ok (some piece))
    (hkind : piece.type = .r ∨ piece.type = .b ∨ piece.type = .q)
    (hside : piece.color = g.turn.initial) (ha : Aligned frm dst)
    (hk0 : 0 < k) (hk : k < steps frm dst)
    (hb : getCell g.board (pathSquare frm dst k).row (pathSquare frm dst k).col
      = .ok (some blocker)) :
    move g frm dst = (.ok (.error .invalidMove), g) := by
  have hclear : clearPath frm dst g.board ≠ .ok true := by
    intro hc
    rcases clearPath_spec g.board hf hd ha with ⟨_, h⟩ | ⟨h, _⟩
    · have := h k hk0 hk
      rw [hb] at this
      simp at this
    · rw [hc] at h
      simp at h
  have hnot : ∀ p, getCell g.board frm.row frm.col = .ok (some p) →
      isValidPieceMove g.turn p.type frm dst g.board false ≠ .ok true := by
    intro p hp hv
    obtain ⟨q, target, h1, _, _, _, _, h6⟩ := isValidPieceMove_true _ _ _ _ _ _ hv
    have hq : q = piece := by
      rw [hcell] at h1
      simpa using h1.symm
    have hpq : p = piece := by
      rw [hcell] at hp
      simpa using hp.symm
    subst hq hpq
    rcases hkind with h | h | h <;> rw [h] at h6 <;> simp only [pieceSwitch] at h6 <;>
      split_ifs at h6 <;> first | exact hclear h6 | simp at h6
  rcases move_spec g hf hd with ⟨hc, _⟩ | ⟨_, _, _, hm⟩ | ⟨p, hc, hv, _⟩ | ⟨p, _, hc, hv, _⟩
  · rw [hcell] at hc
    simp at hc
  · exact hm
  · exact absurd hv (hnot p hc)
  · exact absurd hv (hnot p hc)

/-- C10 at the initial position: the rook a1 cannot take on a7, the pawn a2
stands in between. -/
theorem C10_sliding_blocked_path_witness :
    move Game.new ⟨0, 0⟩ ⟨6, 0⟩ = (.ok (.error .invalidMove), Game.new) :=
  C10_sliding_blocked_path Game.new ⟨0, 0⟩ ⟨6, 0⟩ ⟨.r, .w⟩ ⟨.p, .w⟩ 1 (by decide) (by decide)
    rfl (Or.inl rfl) rfl (Or.inr (Or.inl rfl)) (by decide) (by decide) rfl

/-- C11. Knight jump ignores blockers: on squares of the grid, with a knight of
the side to move on `frm`, `isValidPieceMove("n", ...)` returns a value, which
is `true` iff `(|dr|, |dc|)` is `(2, 1)` or `(1, 2)` and `dst` does not hold a
piece of the knight's colour; and the result is the same on every board that
agrees with this one on the cells `frm` and `dst`. -/
theorem C11_knight_jump (board : Board) (turn : Side) (frm dst : Square) (piece : Piece)
    (hf : frm.InBounds) (hd : dst.InBounds)
    (hcell : getCell board frm.row frm.col = .ok (some piece))
    (_hkind : piece.type = .n) (hside : piece.color = turn.initial) :
    (∃ v, isValidPieceMove turn .n frm dst board false = .ok v) ∧
    (isValidPieceMove turn .n frm dst board false = .ok true ↔
      (((dst.row - frm.row).natAbs = 2 ∧ (dst.col - frm.col).natAbs = 1) ∨
        ((dst.row - frm.row).natAbs = 1 ∧ (dst.col - frm.col).natAbs = 2)) ∧
      ¬ ∃ t, getCell board dst.row dst.col = .ok (some t) ∧ t.color = piece.color) ∧
    (∀ board2 : Board,
      getCell board2 frm.row frm.col = getCell board frm.row frm.col →
      getCell board2 dst.row dst.col = getCell board dst.row dst.col →
      isValidPieceMove turn .n frm dst board2 false =
        isValidPieceMove turn .n frm dst board false) := by
  refine ⟨isValidPieceMove_total turn .n hf hd board false, ?_, ?_⟩
  · obtain ⟨target, h2⟩ := getCell_ok_of_inBounds board ⟨hd.1, hd.2.1⟩ ⟨hd.2.2.1, hd.2.2.2⟩
    rw [isValidPieceMove_eq turn .n frm dst board false piece target hcell h2, h2]
    have c1 : ¬ (!false && decide (piece.color ≠ turn.initial)) = true := by simp [hside]
    have c2 : ¬ (!isInBounds dst.row dst.col) = true := by
      simp [isInBounds_of_inBounds hd]
    rw [if_neg c1, if_neg c2]
    have e2 := abs_eq_natAbs (dst.row - frm.row) 2
    have e1 := abs_eq_natAbs (dst.row - frm.row) 1
    have f2 := abs_eq_natAbs (dst.col - frm.col) 2
    have f1 := abs_eq_natAbs (dst.col - frm.col) 1
    simp only [Nat.cast_ofNat, Nat.cast_one] at e1 e2 f1 f2
    by_cases c3 : sameColor target piece = true
    · rw [if_pos c3]
      cases target with
      | none => simp [sameColor] at c3
      | some t =>
        have : t.color = piece.color := by simpa [sameColor] using c3
        simp [this]
    · rw [if_neg c3]
      simp only [pieceSwitch, Except.ok.injEq, decide_eq_true_eq, e1, e2, f1, f2]
      cases target with
      | none => simp
      | some t =>
        have : t.color ≠ piece.color := by simpa [sameColor] using c3
        simp [this]
  · intro board2 h1 h2
    simp only [isValidPieceMove, h1, h2]
    rfl

/-- C11 at the initial position: the knight b1 jumps to c3 over the pawns. -/
theorem C11_knight_jump_witness :
    isValidPieceMove .white .n ⟨0, 1⟩ ⟨2, 2⟩ initBoard false = .ok true ∧
      isValidPieceMove .white .n ⟨0, 1⟩ ⟨2, 2⟩ blockedE3.board false =
        isValidPieceMove .white .n ⟨0, 1⟩ ⟨2, 2⟩ initBoard false :=
  have h := C11_knight_jump initBoard .white ⟨0, 1⟩ ⟨2, 2⟩ ⟨.n, .w⟩ (by decide) (by decide)
    rfl rfl rfl
  ⟨h.2.1.mpr ⟨Or.inl ⟨rfl, rfl⟩, by
      rintro ⟨t, ht, _⟩
      have ht : getCell initBoard 2 2 = .ok (some t) := ht
      rw [show getCell initBoard 2 2 = .ok none from rfl] at ht
      simp at ht⟩,
    h.2.2 blockedE3.board rfl rfl⟩


/-- C12. Winner reporting: for an accepted `move` on squares of the grid,
`gameOver` is the value of `isCheckmate` for the new side to move in the new
state, `winner` is the colour that moved when `gameOver` is true and `null`
when it is false, and the winner is never the side to move of the returned
state. -/
theorem C12_winner_reporting (g : Game) (frm dst : Square) (hf : frm.InBounds)
    (hd : dst.InBounds) (s : MoveOk) (h : (move g frm dst).1 = .ok (.ok s)) :
    (move g frm dst).2 = ⟨s.board, s.turn⟩ ∧
    isCheckmate ⟨s.board, s.turn⟩ s.turn = .ok s.gameOver ∧
    (s.gameOver = true → s.winner = some g.turn) ∧
    (s.gameOver = false → s.winner = none) ∧
    s.winner ≠ some s.turn := by
  rcases move_spec g hf hd with ⟨_, hm⟩ | ⟨_, _, _, hm⟩ | ⟨_, _, _, _, hm⟩ |
    ⟨piece, over, _, _, _, hover, hm⟩
  · rw [hm] at h; simp at h
  · rw [hm] at h; simp at h
  · rw [hm] at h; simp at h
  · rw [hm] at h ⊢
    simp only [Except.ok.injEq, MoveResult.ok.injEq] at h
    subst h
    refine ⟨rfl, hover, ?_, ?_, ?_⟩
    · intro ho
      simp only at ho
      simp [ho]
    · intro ho
      simp only at ho
      simp [ho]
    · cases over <;> cases g.turn <;> simp [Side.other]

set_option maxRecDepth 100000 in
/-- C12 at the last move of the fool's mate, Qd8-h4. -/
theorem C12_winner_reporting_witness :
    (move foolsMate3 ⟨7, 3⟩ ⟨3, 7⟩).1 =
        .ok (.ok ⟨trialBoard foolsMate3.board ⟨.q, .b⟩ ⟨7, 3⟩ ⟨3, 7⟩, .white, true,
          some .black⟩) ∧
      (move foolsMate3 ⟨7, 3⟩ ⟨3, 7⟩).2 =
        ⟨trialBoard foolsMate3.board ⟨.q, .b⟩ ⟨7, 3⟩ ⟨3, 7⟩, .white⟩ ∧
      isCheckmate ⟨trialBoard foolsMate3.board ⟨.q, .b⟩ ⟨7, 3⟩ ⟨3, 7⟩, .white⟩ .white
        = .ok true ∧
      (some Side.black : Option Side) = some foolsMate3.turn ∧
      (some Side.black : Option Side) ≠ some Side.white :=
  have hm : (move foolsMate3 ⟨7, 3⟩ ⟨3, 7⟩).1 =
      .ok (.ok ⟨trialBoard foolsMate3.board ⟨.q, .b⟩ ⟨7, 3⟩ ⟨3, 7⟩, .white, true,
        some .black⟩) := by rfl
  have h := C12_winner_reporting foolsMate3 ⟨7, 3⟩ ⟨3, 7⟩ (by decide) (by decide) _ hm
  ⟨hm, h.1, h.2.1, h.2.2.1 rfl, h.2.2.2.2⟩

/-- C13. Checkmate detection is an exhaustive escape search: in every engine
state, `isCheckmate` for the side to move returns a value; it returns `false`
iff there are squares `frm`, `dst` of the grid with a piece of that colour on
`frm`, `isValidPieceMove(piece.type, frm, dst, board)` true and the colour not
in check on the board with the piece moved from `frm` to `dst`; otherwise it
returns `true`.  (The method is a function of the state: it assigns neither
`this.board` nor `this.turn` and writes only to the clone.) -/
theorem C13_checkmate_exhaustive_search (g : Game) :
    (∃ v, isCheckmate g g.turn = .ok v) ∧
    (isCheckmate g g.turn = .ok false ↔
      ∃ frm dst : Square, frm.InBounds ∧ dst.InBounds ∧
        ∃ p, getCell g.board frm.row frm.col = .ok (some p) ∧ p.color = g.turn.initial ∧
          isValidPieceMove g.turn p.type frm dst g.board false = .ok true ∧
          isInCheck g.turn g.turn (trialBoard g.board p frm dst) = .ok false) ∧
    (isCheckmate g g.turn = .ok true ↔
      ¬ ∃ frm dst : Square, frm.InBounds ∧ dst.InBounds ∧
        ∃ p, getCell g.board frm.row frm.col = .ok (some p) ∧ p.color = g.turn.initial ∧
          isValidPieceMove g.turn p.type frm dst g.board false = .ok true ∧
          isInCheck g.turn g.turn (trialBoard g.board p frm dst) = .ok false) :=
  ⟨isCheckmate_total g g.turn, isCheckmate_false_iff g g.turn, isCheckmate_true_iff g g.turn⟩

/-- C14. Stalemate is reported as checkmate: in a state where the side to move
is not in check and no pair of squares escapes, `isCheckmate(turn)` returns
`true`; an accepted `move` that reaches such a state returns `gameOver = true`
with the mover as winner; and the position with the black king on (7,0), the
white queen on (5,1), the white king on (0,7) and black to move is such a
state. -/
theorem C14_stalemate_reported_as_checkmate :
    (∀ g : Game, isInCheck g.turn g.turn g.board = .ok false →
      (¬ ∃ frm dst, Escapes g g.turn frm dst) → isCheckmate g g.turn = .ok true) ∧
    (∀ (g : Game) (frm dst : Square), frm.InBounds → dst.InBounds →
      ∀ s, (move g frm dst).1 = .ok (.ok s) →
        isInCheck s.turn s.turn s.board = .ok false →
        (¬ ∃ frm2 dst2, Escapes ⟨s.board, s.turn⟩ s.turn frm2 dst2) →
        s.gameOver = true ∧ s.winner = some g.turn) ∧
    (isInCheck .black .black stalemateBoard = .ok false ∧
      (¬ ∃ frm dst, Escapes ⟨stalemateBoard, .black⟩ .black frm dst) ∧
      isCheckmate ⟨stalemateBoard, .black⟩ .black = .ok true) := by
  refine ⟨?_, ?_, ?_⟩
  · intro g _ hno
    exact (isCheckmate_true_iff g g.turn).mpr hno
  · intro g frm dst hf hd s hs _ hno
    have hmate : isCheckmate ⟨s.board, s.turn⟩ s.turn = .ok true :=
      (isCheckmate_true_iff ⟨s.board, s.turn⟩ s.turn).mpr hno
    rcases move_spec g hf hd with ⟨_, hm⟩ | ⟨_, _, _, hm⟩ | ⟨_, _, _, _, hm⟩ |
      ⟨piece, over, _, _, _, hover, hm⟩
    · rw [hm] at hs; simp at hs
    · rw [hm] at hs; simp at hs
    · rw [hm] at hs; simp at hs
    · rw [hm] at hs
      simp only [Except.ok.injEq, MoveResult.ok.injEq] at hs
      subst hs
      simp only at hmate
      rw [hover] at hmate
      simp only [Except.ok.injEq] at hmate
      subst hmate
      exact ⟨rfl, rfl⟩
  · have hmate : isCheckmate ⟨stalemateBoard, .black⟩ .black = .ok true := by rfl
    exact ⟨by rfl, (isCheckmate_true_iff ⟨stalemateBoard, .black⟩ .black).mp hmate, hmate⟩

/-- C14 at the stalemate position, and at the queen move (5,2)-(5,1) that
reaches it. -/
theorem C14_stalemate_reported_as_checkmate_witness :
    isCheckmate ⟨stalemateBoard, .black⟩ .black = .ok true ∧
      (move preStalemate ⟨5, 2⟩ ⟨5, 1⟩).1 =
        .ok (.ok ⟨trialBoard preStalemate.board ⟨.q, .w⟩ ⟨5, 2⟩ ⟨5, 1⟩, .black, true,
          some .white⟩) ∧
      isInCheck .black .black (trialBoard preStalemate.board ⟨.q, .w⟩ ⟨5, 2⟩ ⟨5, 1⟩)
        = .ok false ∧
      (true = true ∧ (some Side.white : Option Side) = some preStalemate.turn) :=
  have hm : (move preStalemate ⟨5, 2⟩ ⟨5, 1⟩).1 =
      .ok (.ok ⟨trialBoard preStalemate.board ⟨.q, .w⟩ ⟨5, 2⟩ ⟨5, 1⟩, .black, true,
        some .white⟩) := by rfl
  have hc : isInCheck .black .black (trialBoard preStalemate.board ⟨.q, .w⟩ ⟨5, 2⟩ ⟨5, 1⟩)
      = .ok false := by rfl
  have hmate : isCheckmate ⟨trialBoard preStalemate.board ⟨.q, .w⟩ ⟨5, 2⟩ ⟨5, 1⟩, .black⟩
      .black = .ok true := by rfl
  ⟨C14_stalemate_reported_as_checkmate.1 ⟨stalemateBoard, .black⟩ (by rfl)
      ((isCheckmate_true_iff ⟨stalemateBoard, .black⟩ .black).mp (by rfl)),
    hm, hc,
    C14_stalemate_reported_as_checkmate.2.1 preStalemate ⟨5, 2⟩ ⟨5, 1⟩ (by decide) (by decide)
      _ hm hc ((isCheckmate_true_iff _ .black).mp hmate)⟩

/-- C15. Finished is terminal: in every state `isCheckmate(turn)` is `true` iff
no pair of squares of the grid is accepted by `move`; and after an accepted
`move` that returned `gameOver = true`, every call of `move` on squares of the
grid returns a rejection and leaves the state as it was, so the state is the same
after any sequence of such calls. -/
theorem C15_finished_is_terminal :
    (∀ g : Game, isCheckmate g g.turn = .ok true ↔
      ∀ frm dst : Square, frm.InBounds → dst.InBounds →
        ¬ ∃ s, (move g frm dst).1 = .ok (.ok s)) ∧
    (∀ (g : Game) (frm dst : Square), frm.InBounds → dst.InBounds →
      ∀ s, (move g frm dst).1 = .ok (.ok s) → s.gameOver = true →
        (∀ frm2 dst2 : Square, frm2.InBounds → dst2.InBounds →
          ∃ e, move (move g frm dst).2 frm2 dst2 = (.ok (.error e), (move g frm dst).2)) ∧
        (∀ ms : List (Square × Square), (∀ m ∈ ms, m.1.InBounds ∧ m.2.InBounds) →
          playAll (move g frm dst).2 ms = (move g frm dst).2)) := by
  have key : ∀ g : Game, isCheckmate g g.turn = .ok true ↔
      ∀ frm dst : Square, frm.InBounds → dst.InBounds →
        ¬ ∃ s, (move g frm dst).1 = .ok (.ok s) := by
    intro g
    rw [isCheckmate_true_iff]
    constructor
    · intro hno frm dst hf hd hacc
      exact hno ⟨frm, dst, (move_accepted_iff g hf hd).mp hacc⟩
    · rintro hall ⟨frm, dst, hesc⟩
      exact hall frm dst hesc.1 hesc.2.1 ((move_accepted_iff g hesc.1 hesc.2.1).mpr hesc)
  have rej : ∀ g : Game, isCheckmate g g.turn = .ok true →
      ∀ frm dst : Square, frm.InBounds → dst.InBounds →
        ∃ e, move g frm dst = (.ok (.error e), g) := by
    intro g hmate frm dst hf hd
    rcases move_spec g hf hd with ⟨_, hm⟩ | ⟨_, _, _, hm⟩ | ⟨_, _, _, _, hm⟩ |
      ⟨piece, over, _, _, _, _, hm⟩
    · exact ⟨_, hm⟩
    · exact ⟨_, hm⟩
    · exact ⟨_, hm⟩
    · exact absurd ⟨_, congrArg Prod.fst hm⟩ ((key g).mp hmate frm dst hf hd)
  refine ⟨key, ?_⟩
  intro g frm dst hf hd s hs hover
  have hmate : isCheckmate (move g frm dst).2 (move g frm dst).2.turn = .ok true := by
    rcases move_spec g hf hd with ⟨_, hm⟩ | ⟨_, _, _, hm⟩ | ⟨_, _, _, _, hm⟩ |
      ⟨piece, over, _, _, _, hov, hm⟩
    · rw [hm] at hs; simp at hs
    · rw [hm] at hs; simp at hs
    · rw [hm] at hs; simp at hs
    · rw [hm] at hs ⊢
      simp only [Except.ok.injEq, MoveResult.ok.injEq] at hs
      subst hs
      simp only at hover
      subst hover
      exact hov
  refine ⟨rej _ hmate, ?_⟩
  intro ms
  induction ms with
  | nil => intro _; rfl
  | cons m rest ih =>
    intro hin
    have hm := hin m (List.mem_cons_self _ _)
    obtain ⟨e, he⟩ := rej _ hmate m.1 m.2 hm.1 hm.2
    simp only [playAll, List.foldl_cons, he]
    exact ih (fun x hx => hin x (List.mem_cons_of_mem _ hx))

set_option maxRecDepth 100000 in
/-- C15 after the fool's mate: the reply g4-g5 is rejected and the state stays,
also after a sequence of two calls. -/
theorem C15_finished_is_terminal_witness :
    (move foolsMate3 ⟨7, 3⟩ ⟨3, 7⟩).1 =
        .ok (.ok ⟨trialBoard foolsMate3.board ⟨.q, .b⟩ ⟨7, 3⟩ ⟨3, 7⟩, .white, true,
          some .black⟩) ∧
      (∃ e, move (move foolsMate3 ⟨7, 3⟩ ⟨3, 7⟩).2 ⟨3, 6⟩ ⟨4, 6⟩ =
        (.ok (.error e), (move foolsMate3 ⟨7, 3⟩ ⟨3, 7⟩).2)) ∧
      playAll (move foolsMate3 ⟨7, 3⟩ ⟨3, 7⟩).2 [(⟨3, 6⟩, ⟨4, 6⟩), (⟨0, 4⟩, ⟨1, 5⟩)] =
        (move foolsMate3 ⟨7, 3⟩ ⟨3, 7⟩).2 ∧
      (isCheckmate (move foolsMate3 ⟨7, 3⟩ ⟨3, 7⟩).2 (move foolsMate3 ⟨7, 3⟩ ⟨3, 7⟩).2.turn
          = .ok true ↔
        ∀ frm dst : Square, frm.InBounds → dst.InBounds →
          ¬ ∃ s, (move (move foolsMate3 ⟨7, 3⟩ ⟨3, 7⟩).2 frm dst).1 = .ok (.ok s)) :=
  have hm : (move foolsMate3 ⟨7, 3⟩ ⟨3, 7⟩).1 =
      .ok (.ok ⟨trialBoard foolsMate3.board ⟨.q, .b⟩ ⟨7, 3⟩ ⟨3, 7⟩, .white, true,
        some .black⟩) := by rfl
  have h := C15_finished_is_terminal.2 foolsMate3 ⟨7, 3⟩ ⟨3, 7⟩ (by decide) (by decide) _ hm rfl
  ⟨hm, h.1 ⟨3, 6⟩ ⟨4, 6⟩ (by decide) (by decide),
    h.2 [(⟨3, 6⟩, ⟨4, 6⟩), (⟨0, 4⟩, ⟨1, 5⟩)] (by decide),
    C15_finished_is_terminal.1 _⟩

/-- C16. Move frame and no promotion: after an accepted `move` on squares of
the grid, `frm` and `dst` differ, the new board has `frm` empty, `dst` holding
the piece that stood on `frm` (same kind and colour, so a pawn stays a pawn on
any row), every other square of the grid unchanged, and the piece count is one
less if `dst` was occupied and the same otherwise. -/
theorem C16_move_frame (g : Game) (frm dst : Square) (hf : frm.InBounds)
    (hd : dst.InBounds) (s : MoveOk) (h : (move g frm dst).1 = .ok (.ok s)) :
    ∃ piece, getCell g.board frm.row frm.col = .ok (some piece) ∧
      frm ≠ dst ∧
      getCell s.board frm.row frm.col = .ok none ∧
      getCell s.board dst.row dst.col = .ok (some piece) ∧
      (∀ x : Square, x.InBounds → x ≠ frm → x ≠ dst →
        getCell s.board x.row x.col = getCell g.board x.row x.col) ∧
      (∀ t, getCell g.board dst.row dst.col = .ok (some t) →
        pieceCount s.board + 1 = pieceCount g.board) ∧
      (getCell g.board dst.row dst.col = .ok none →
        pieceCount s.board = pieceCount g.board) := by
  rcases move_spec g hf hd with ⟨_, hm⟩ | ⟨_, _, _, hm⟩ | ⟨_, _, _, _, hm⟩ |
    ⟨piece, over, hcell, hv, _, _, hm⟩
  · rw [hm] at h; simp at h
  · rw [hm] at h; simp at h
  · rw [hm] at h; simp at h
  · rw [hm] at h
    simp only [Except.ok.injEq, MoveResult.ok.injEq] at h
    subst h
    obtain ⟨fi, fj, rfl⟩ := inBounds_eq_sq hf
    obtain ⟨di, dj, rfl⟩ := inBounds_eq_sq hd
    obtain ⟨q, target, h1, h2, _, _, h5, _⟩ := isValidPieceMove_true _ _ _ _ _ _ hv
    rw [getCell_sq] at hcell h1 h2
    simp only [Except.ok.injEq] at hcell h1 h2
    have hq : q = piece := by
      rw [hcell] at h1
      simpa using h1.symm
    subst hq h2
    have hfd : ((fi, fj) : Fin 8 × Fin 8) ≠ (di, dj) := by
      intro e
      simp only [Prod.mk.injEq] at e
      rw [← e.1, ← e.2, hcell, sameColor_self] at h5
      exact Bool.noConfusion h5
    have hsq : sq fi fj ≠ sq di dj := by
      intro e
      apply hfd
      simp only [sq, Square.mk.injEq, Nat.cast_inj, Fin.val_inj] at e
      exact Prod.ext e.1 e.2
    have hcount := pieceCount_trial g.board q (fi, fj) (di, dj) hcell hfd
    refine ⟨q, by rw [getCell_sq, hcell], hsq, ?_, ?_, ?_, ?_, ?_⟩
    · rw [getCell_sq]
      have := trialBoard_apply g.board q (fi, fj) (di, dj) (fi, fj)
      simp only [if_true] at this
      exact congrArg Except.ok this
    · rw [getCell_sq]
      have := trialBoard_apply g.board q (fi, fj) (di, dj) (di, dj)
      simp only [if_neg (Ne.symm hfd), if_true] at this
      exact congrArg Except.ok this
    · intro x hx hxf hxd
      obtain ⟨xi, xj, rfl⟩ := inBounds_eq_sq hx
      rw [getCell_sq, getCell_sq]
      have := trialBoard_apply g.board q (fi, fj) (di, dj) (xi, xj)
      have e1 : ((xi, xj) : Fin 8 × Fin 8) ≠ (fi, fj) := by
        intro e
        simp only [Prod.mk.injEq] at e
        exact hxf (by rw [e.1, e.2])
      have e2 : ((xi, xj) : Fin 8 × Fin 8) ≠ (di, dj) := by
        intro e
        simp only [Prod.mk.injEq] at e
        exact hxd (by rw [e.1, e.2])
      simp only [if_neg e1, if_neg e2] at this
      exact congrArg Except.ok this
    · intro t ht
      rw [getCell_sq] at ht
      simp only [Except.ok.injEq] at ht
      simp only [ht, Option.isSome_some, if_true] at hcount
      exact hcount
    · intro ht
      rw [getCell_sq] at ht
      simp only [Except.ok.injEq] at ht
      simp only [ht, Option.isSome_none, Bool.false_eq_true, if_false, add_zero] at hcount
      exact hcount

/-- C16 at the capture e4xd5 after 1. e2-e4 d7-d5: one piece fewer. -/
theorem C16_move_frame_witness :
    (move afterE4D5 ⟨3, 4⟩ ⟨4, 3⟩).1 =
        .ok (.ok ⟨trialBoard afterE4D5.board ⟨.p, .w⟩ ⟨3, 4⟩ ⟨4, 3⟩, .black, false, none⟩) ∧
      getCell afterE4D5.board 4 3 = .ok (some ⟨.p, .b⟩) ∧
      pieceCount (trialBoard afterE4D5.board ⟨.p, .w⟩ ⟨3, 4⟩ ⟨4, 3⟩) + 1
        = pieceCount afterE4D5.board :=
  have hm : (move afterE4D5 ⟨3, 4⟩ ⟨4, 3⟩).1 =
      .ok (.ok ⟨trialBoard afterE4D5.board ⟨.p, .w⟩ ⟨3, 4⟩ ⟨4, 3⟩, .black, false, none⟩) := rfl
  have hc : getCell afterE4D5.board 4 3 = .ok (some ⟨.p, .b⟩) := rfl
  ⟨hm, hc,
    (C16_move_frame afterE4D5 ⟨3, 4⟩ ⟨4, 3⟩ (by decide) (by decide) _ hm).elim
      (fun _ hp => hp.2.2.2.2.2.1 ⟨.p, .b⟩ hc)⟩

/-- C17, the claim as stated fails: with the rook's walk from (0,0) to (6,0) on
the initial board, `clearPath` reads the single cell (1,0), finds the pawn and
returns `false`; it does not visit the 5 squares strictly between. -/
theorem C17_path_clearance_counterexample :
    (Square.mk 0 0).InBounds ∧ (Square.mk 6 0).InBounds ∧ Aligned ⟨0, 0⟩ ⟨6, 0⟩ ∧
      clearPathTraced ⟨0, 0⟩ ⟨6, 0⟩ initBoard = (.ok false, [⟨1, 0⟩]) ∧
      max ((6 : Int) - 0).natAbs ((0 : Int) - 0).natAbs - 1 = 5 ∧
      (clearPathTraced ⟨0, 0⟩ ⟨6, 0⟩ initBoard).2.length ≠
        max ((6 : Int) - 0).natAbs ((0 : Int) - 0).natAbs - 1 :=
  ⟨by decide, by decide, Or.inr (Or.inl rfl), rfl, rfl, by decide⟩

/-- C17, amended. Path clearance: on squares of the grid that share a row, a
column or a diagonal, `clearPath` returns a value; the `max(|dr|,|dc|) - 1`
squares strictly between are `betweenSquares`; the result is `true` iff every
one of them is empty; the cells read are those squares in walk order, all of
them when the result is `true` and those up to and including the first occupied
one when it is `false`; and result and reads are the same on every board that
agrees with this one off `frm` and `dst`. -/
theorem C17_path_clearance (board : Board) (frm dst : Square) (hf : frm.InBounds)
    (hd : dst.InBounds) (ha : Aligned frm dst) :
    (clearPathTraced frm dst board).1 = clearPath frm dst board ∧
    (betweenSquares frm dst).length =
      max (dst.row - frm.row).natAbs (dst.col - frm.col).natAbs - 1 ∧
    (∃ v, clearPath frm dst board = .ok v) ∧
    (clearPath frm dst board = .ok true ↔
      ∀ x ∈ betweenSquares frm dst, getCell board x.row x.col = .ok none) ∧
    (clearPath frm dst board = .ok true →
      (clearPathTraced frm dst board).2 = betweenSquares frm dst) ∧
    (clearPath frm dst board = .ok false →
      ∃ k : Nat, 0 < k ∧ k < steps frm dst ∧
        (clearPathTraced frm dst board).2 = (betweenSquares frm dst).take k ∧
        (∃ p, getCell board (pathSquare frm dst k).row (pathSquare frm dst k).col
          = .ok (some p)) ∧
        ∀ j : Nat, 0 < j → j < k →
          getCell board (pathSquare frm dst j).row (pathSquare frm dst j).col = .ok none) ∧
    (∀ board2 : Board,
      (∀ x : Square, x ≠ frm → x ≠ dst →
        getCell board2 x.row x.col = getCell board x.row x.col) →
      clearPathTraced frm dst board2 = clearPathTraced frm dst board) := by
  have hfst := clearPathTraced_fst frm dst board
  refine ⟨hfst, length_betweenSquares frm dst, ?_, ?_, ?_, ?_,
    fun board2 h => clearPathTraced_congr board board2 hf hd ha h⟩
  · rcases clearPath_spec board hf hd ha with h | h
    · exact ⟨true, h.1⟩
    · exact ⟨false, h.1⟩
  · constructor
    · intro ht x hx
      obtain ⟨k, hk0, hk, rfl⟩ := (mem_betweenSquares frm dst x).mp hx
      rcases clearPath_spec board hf hd ha with ⟨_, h⟩ | ⟨h, _⟩
      · exact h k hk0 hk
      · rw [ht] at h
        simp at h
    · intro hall
      rcases clearPath_spec board hf hd ha with ⟨h, _⟩ | ⟨_, k, hk0, hk, p, hp⟩
      · exact h
      · have := hall _ ((mem_betweenSquares frm dst _).mpr ⟨k, hk0, hk, rfl⟩)
        rw [hp] at this
        simp at this
  · intro ht
    rcases clearPathTraced_spec board hf hd ha with ⟨h, _⟩ | ⟨k, _, _, _, _, h⟩
    · rw [h]
    · rw [← hfst, h] at ht
      simp at ht
  · intro hfalse
    rcases clearPathTraced_spec board hf hd ha with ⟨h, _⟩ | ⟨k, hk0, hk, hp, hj, h⟩
    · rw [← hfst, h] at hfalse
      simp at hfalse
    · exact ⟨k, hk0, hk, by rw [h], hp, hj⟩

/-- C17 (amended) on the initial board for the walk from (0,0) to (6,0): the
result is `false`, the reads stop at the pawn on (1,0), and the same holds
with other contents on (0,0) and (6,0). -/
theorem C17_path_clearance_witness :
    clearPath ⟨0, 0⟩ ⟨6, 0⟩ initBoard = .ok false ∧
      (∃ k : Nat, 0 < k ∧ k < steps ⟨0, 0⟩ ⟨6, 0⟩ ∧
        (clearPathTraced ⟨0, 0⟩ ⟨6, 0⟩ initBoard).2 = (betweenSquares ⟨0, 0⟩ ⟨6, 0⟩).take k ∧
        (∃ p, getCell initBoard (pathSquare ⟨0, 0⟩ ⟨6, 0⟩ k).row
          (pathSquare ⟨0, 0⟩ ⟨6, 0⟩ k).col = .ok (some p)) ∧
        ∀ j : Nat, 0 < j → j < k →
          getCell initBoard (pathSquare ⟨0, 0⟩ ⟨6, 0⟩ j).row
            (pathSquare ⟨0, 0⟩ ⟨6, 0⟩ j).col = .ok none) ∧
      clearPathTraced ⟨0, 0⟩ ⟨6, 0⟩
          ((initBoard.set 0 0 none).set 6 0 (some ⟨.q, .w⟩)) =
        clearPathTraced ⟨0, 0⟩ ⟨6, 0⟩ initBoard :=
  have h := C17_path_clearance initBoard ⟨0, 0⟩ ⟨6, 0⟩ (by decide) (by decide)
    (Or.inr (Or.inl rfl))
  ⟨rfl, h.2.2.2.2.2.1 rfl,
    h.2.2.2.2.2.2 ((initBoard.set 0 0 none).set 6 0 (some ⟨.q, .w⟩)) (fun x h1 h2 => by
      rw [getCell_set_ne _ 6 0 _ x h2, getCell_set_ne _ 0 0 _ x h1])⟩


/-- C18. No null move: on a square `s` of the grid, `isValidPieceMove(kind, s,
s, board, ignoreTurn)` is `false` for every board, kind and `ignoreTurn`; hence
on squares of the grid a valid rook move has exactly one of `dr`, `dc` zero,
and a valid king move goes to a different square with `|dr| ≤ 1` and
`|dc| ≤ 1`, one of the 8 neighbours. -/
theorem C18_no_null_move :
    (∀ (board : Board) (turn : Side) (kind : Kind) (s : Square) (ignoreTurn : Bool),
      s.InBounds → isValidPieceMove turn kind s s board ignoreTurn = .ok false) ∧
    (∀ (board : Board) (turn : Side) (frm dst : Square) (ignoreTurn : Bool),
      frm.InBounds → dst.InBounds →
      isValidPieceMove turn .r frm dst board ignoreTurn = .ok true →
      (dst.row - frm.row = 0 ∧ dst.col - frm.col ≠ 0) ∨
        (dst.row - frm.row ≠ 0 ∧ dst.col - frm.col = 0)) ∧
    (∀ (board : Board) (turn : Side) (frm dst : Square) (ignoreTurn : Bool),
      frm.InBounds → dst.InBounds →
      isValidPieceMove turn .k frm dst board ignoreTurn = .ok true →
      frm ≠ dst ∧ (dst.row - frm.row).natAbs ≤ 1 ∧ (dst.col - frm.col).natAbs ≤ 1) := by
  have hne : ∀ (board : Board) (turn : Side) (kind : Kind) (frm dst : Square)
      (ignoreTurn : Bool), frm.InBounds →
      isValidPieceMove turn kind frm dst board ignoreTurn = .ok true → frm ≠ dst := by
    intro board turn kind frm dst ignoreTurn hf hv e
    subst e
    rw [isValidPieceMove_same_square turn kind hf board ignoreTurn] at hv
    simp at hv
  refine ⟨fun board turn kind s ignoreTurn hs =>
    isValidPieceMove_same_square turn kind hs board ignoreTurn, ?_, ?_⟩
  · intro board turn frm dst ignoreTurn hf _ hv
    have hfd := hne board turn .r frm dst ignoreTurn hf hv
    obtain ⟨piece, target, _, _, _, _, _, h6⟩ := isValidPieceMove_true _ _ _ _ _ _ hv
    simp only [pieceSwitch] at h6
    have hnz : ¬ (dst.row - frm.row = 0 ∧ dst.col - frm.col = 0) := by
      rintro ⟨e1, e2⟩
      apply hfd
      obtain ⟨a, b⟩ := frm
      obtain ⟨c, d⟩ := dst
      simp only [Square.mk.injEq]
      simp only at e1 e2
      omega
    split_ifs at h6 with hs
    · omega
    · simp at h6
  · intro board turn frm dst ignoreTurn hf _ hv
    have hfd := hne board turn .k frm dst ignoreTurn hf hv
    obtain ⟨piece, target, _, _, _, _, _, h6⟩ := isValidPieceMove_true _ _ _ _ _ _ hv
    simp only [pieceSwitch, Except.ok.injEq, decide_eq_true_eq, Math.abs] at h6
    refine ⟨hfd, ?_, ?_⟩
    · have := h6.1
      split_ifs at this <;> omega
    · have := h6.2
      split_ifs at this <;> omega

/-- C18 at the initial position: the rook a1 "moving" to a1 is not valid, and
after 1. e2-e4 the valid king move e1-e2 goes to a neighbouring square. -/
theorem C18_no_null_move_witness :
    isValidPieceMove .white .r ⟨0, 0⟩ ⟨0, 0⟩ initBoard false = .ok false ∧
      isValidPieceMove .white .k ⟨0, 4⟩ ⟨1, 4⟩ afterE4.board true = .ok true ∧
      ((⟨0, 4⟩ : Square) ≠ ⟨1, 4⟩ ∧ ((1 : Int) - 0).natAbs ≤ 1 ∧ ((4 : Int) - 4).natAbs ≤ 1) ∧
      isValidPieceMove .white .r ⟨0, 0⟩ ⟨0, 1⟩ rookBoard false = .ok true ∧
      (((0 : Int) - 0 = 0 ∧ (1 : Int) - 0 ≠ 0) ∨ ((0 : Int) - 0 ≠ 0 ∧ (1 : Int) - 0 = 0)) :=
  ⟨C18_no_null_move.1 initBoard .white .r ⟨0, 0⟩ false (by decide),
    rfl,
    C18_no_null_move.2.2 afterE4.board .white ⟨0, 4⟩ ⟨1, 4⟩ true (by decide) (by decide) rfl,
    rfl,
    C18_no_null_move.2.1 rookBoard .white ⟨0, 0⟩ ⟨0, 1⟩ false (by decide) (by decide) rfl⟩


/-- C19. Index safety and termination of move validation: on squares of the
grid, for every board, turn, kind and `ignoreTurn`, `isValidPieceMove` returns a
value (no fault, the loop of `clearPath` ends within its fuel) and every cell it
reads lies on the grid: it reads `frm`, `dst`, for a rook, bishop or queen and
only when the squares are aligned squares strictly between them, and for a pawn
only the square in front of the home row (row 1 or 6).  Consequently
`isSquareAttacked`, `isInCheck`, `isCheckmate` and `move` return a value. -/
theorem C19_index_safety (board : Board) (turn : Side) (kind : Kind) (frm dst : Square)
    (ignoreTurn : Bool) (hf : frm.InBounds) (hd : dst.InBounds) :
    (isValidPieceMoveTraced turn kind frm dst board ignoreTurn).1 =
      isValidPieceMove turn kind frm dst board ignoreTurn ∧
    (∃ v, isValidPieceMove turn kind frm dst board ignoreTurn = .ok v) ∧
    (∀ x ∈ (isValidPieceMoveTraced turn kind frm dst board ignoreTurn).2, x.InBounds) ∧
    (∀ x ∈ (isValidPieceMoveTraced turn kind frm dst board ignoreTurn).2,
      x = frm ∨ x = dst ∨
      ((kind = .r ∨ kind = .b ∨ kind = .q) ∧ Aligned frm dst ∧
        ∃ k : Nat, 0 < k ∧ k < steps frm dst ∧ x = pathSquare frm dst k) ∨
      (kind = .p ∧ ((frm.row = 1 ∧ x = ⟨2, frm.col⟩) ∨ (frm.row = 6 ∧ x = ⟨5, frm.col⟩)))) ∧
    (∀ byColor : Side, ∃ v, isSquareAttacked turn dst.row dst.col byColor board = .ok v) ∧
    (∀ color : Side, ∃ v, isInCheck turn color board = .ok v) ∧
    (∀ color : Side, ∃ v, isCheckmate ⟨board, turn⟩ color = .ok v) ∧
    (∃ r, (move ⟨board, turn⟩ frm dst).1 = .ok r) := by
  have hreads := isValidPieceMoveTraced_reads turn kind hf hd board ignoreTurn
  refine ⟨isValidPieceMoveTraced_fst turn kind frm dst board ignoreTurn,
    isValidPieceMove_total turn kind hf hd board ignoreTurn, ?_, hreads,
    fun byColor => isSquareAttackedLoop_total turn hd byColor board allSquares,
    fun color => isInCheck_total turn color board,
    fun color => isCheckmate_total ⟨board, turn⟩ color, ?_⟩
  · intro x hx
    rcases hreads x hx with rfl | rfl | ⟨_, ha, k, _, hk, rfl⟩ | ⟨_, ⟨_, rfl⟩ | ⟨_, rfl⟩⟩
    · exact hf
    · exact hd
    · exact pathSquare_inBounds hf hd ha (by omega)
    · exact ⟨by show (0 : Int) ≤ 2; decide, by show (2 : Int) < 8; decide, hf.2.2.1, hf.2.2.2⟩
    · exact ⟨by show (0 : Int) ≤ 5; decide, by show (5 : Int) < 8; decide, hf.2.2.1, hf.2.2.2⟩
  · rcases move_spec ⟨board, turn⟩ hf hd with ⟨_, hm⟩ | ⟨_, _, _, hm⟩ | ⟨_, _, _, _, hm⟩ |
      ⟨_, _, _, _, _, _, hm⟩ <;> exact ⟨_, congrArg Prod.fst hm⟩

/-- C19 on the initial board for the queen's walk d1-d4: the reads are d1, d4
and d2, all on the grid. -/
theorem C19_index_safety_witness :
    isValidPieceMoveTraced .white .q ⟨0, 3⟩ ⟨3, 3⟩ initBoard false =
        (.ok false, [⟨0, 3⟩, ⟨3, 3⟩, ⟨1, 3⟩]) ∧
      (∃ v, isValidPieceMove .white .q ⟨0, 3⟩ ⟨3, 3⟩ initBoard false = .ok v) ∧
      (∀ x ∈ (isValidPieceMoveTraced .white .q ⟨0, 3⟩ ⟨3, 3⟩ initBoard false).2,
        x.InBounds) ∧
      (∃ r, (move ⟨initBoard, .white⟩ ⟨0, 3⟩ ⟨3, 3⟩).1 = .ok r) :=
  have h := C19_index_safety initBoard .white .q ⟨0, 3⟩ ⟨3, 3⟩ false (by decide) (by decide)
  ⟨rfl, h.2.1, h.2.2.1, h.2.2.2.2.2.2.2⟩

/-- C20. The method `isCheckmate` depends on the turn flag: for a colour that
is not the side to move it returns `true` in every position, each candidate
move failing the ownership test of the turn-respecting `isValidPieceMove`. -/
theorem C20_isCheckmate_depends_on_turn (g : Game) (color : Side) (h : color ≠ g.turn) :
    isCheckmate g color = .ok true := by
  have hi : color.initial ≠ g.turn.initial := by
    cases color <;> cases hg : g.turn <;> simp_all [Side.initial]
  exact isCheckmateOuter_wrong_turn g.turn color g.board hi allSquares

/-- C20 at the initial position: black, not to move, is reported checkmated. -/
theorem C20_isCheckmate_depends_on_turn_witness :
    Side.black ≠ Game.new.turn ∧ isCheckmate Game.new .black = .ok true :=
  ⟨by decide, C20_isCheckmate_depends_on_turn Game.new .black (by decide)⟩

end Chess
